import Mathlib

/-!
Verification of the NTSR dependency-resolution and session-transpilation
pipeline, shallowly embedded from the TypeScript sources:
`src/transpiler/core.ts`, `src/transpiler/dependency-manager.ts`,
`src/transpiler/temp-manager.ts`, `src/transpiler/type-checker.ts`,
`src/tsconfig.ts` and the import-resolver module.

Absolute file paths are modelled as canonical lists of segments
(`Path := List String`, rooted at a single root, POSIX-style).
File contents and raw file names are modelled as `String`.
-/

namespace NTSR

/-! ## String helpers (JS `String.prototype.includes` / `endsWith`) -/

/-- Whether the character list `needle` occurs contiguously inside `hay`
(JS `hay.includes(needle)` on the underlying characters). -/
def hasSubList (needle : List Char) : List Char → Bool
  | [] => needle.isEmpty
  | c :: t => needle.isPrefixOf (c :: t) || hasSubList needle t

/-- JS `hay.includes(needle)` for strings. -/
def strIncludes (hay needle : String) : Bool :=
  hasSubList needle.data hay.data

/-- JS `s.endsWith(suffix)`. -/
def strEndsWith (s suffix : String) : Bool :=
  suffix.data.isSuffixOf s.data

/-- JS `s.startsWith(t)`. -/
def strStartsWith (s t : String) : Bool :=
  t.data.isPrefixOf s.data

/-! ## Diagnostics and the TypeChecker filter
(`src/transpiler/type-checker.ts`, `TypeChecker.filterRelevantDiagnostics`) -/

/-- `ts.DiagnosticCategory`. -/
inductive DiagCategory where
  | warning
  | error
  | suggestion
  | message
deriving DecidableEq, Repr

/-- One `ts.Diagnostic`, restricted to the fields the filter inspects:
the category, the (optional) file the diagnostic is attached to, and the
numeric diagnostic code. -/
structure Diagnostic where
  category : DiagCategory
  fileName : Option String
  code : Nat
deriving DecidableEq, Repr

/-- The fixed ignore list of `filterRelevantDiagnostics`
(`const ignoredCodes = new Set([...])`). -/
def ignoredCodes : List Nat :=
  [2304, 2318, 2307, 6133, 6196, 7016, 7017, 2580, 2792, 5023, 5024, 6053, 6059]

/-- The fixed critical-error allowlist of `filterRelevantDiagnostics`
(`const criticalErrorCodes = new Set([...])`). -/
def criticalErrorCodes : List Nat :=
  [1002, 1003, 1005, 1009, 1128, 2322, 2339, 2345, 2355, 2365, 2532, 2540,
   2551, 2552, 2554, 2571]

/-- The predicate of the `diagnostics.filter(...)` callback in
`TypeChecker.filterRelevantDiagnostics`, translated branch by branch. -/
def keepDiagnostic (userFileName : String) (d : Diagnostic) : Bool :=
  -- Only include errors and warnings, skip suggestions and messages
  if d.category ≠ DiagCategory.error ∧ d.category ≠ DiagCategory.warning then
    false
  else
    -- Skip diagnostics from library files; only include diagnostics
    -- from our target file (both checks run only when `diagnostic.file` is set)
    let fileOk : Bool :=
      match d.fileName with
      | some fn =>
        if strIncludes fn "node_modules" || strIncludes fn "lib."
            || strEndsWith fn ".d.ts" then
          false
        else
          fn == userFileName
      | none => true
    if !fileOk then
      false
    -- Filter out common environment-related diagnostic codes
    else if d.code ∈ ignoredCodes then
      false
    -- For errors, be more permissive and only show severe type errors
    else if d.category = DiagCategory.error then
      d.code ∈ criticalErrorCodes
    else
      true

/-- `TypeChecker.filterRelevantDiagnostics`. -/
def filterRelevantDiagnostics (diagnostics : List Diagnostic)
    (userFileName : String) : List Diagnostic :=
  diagnostics.filter (keepDiagnostic userFileName)

/-- The abort decision of `TypeScriptTranspiler.transpileCode`:
`errors = diagnostics.filter(d => d.category === Error); if (errors.length > 0) throw`. -/
def compilationFails (relevant : List Diagnostic) : Bool :=
  relevant.any (fun d => d.category == DiagCategory.error)

/-- Everything `keepDiagnostic f d = true` guarantees about `d`:
file scoping, ignore-list exclusion, and the critical-code allowlist
for error-severity diagnostics. -/
theorem keepDiagnostic_spec {f : String} {d : Diagnostic}
    (h : keepDiagnostic f d = true) :
    (∀ fn, d.fileName = some fn →
      strIncludes fn "node_modules" = false ∧ strIncludes fn "lib." = false ∧
      strEndsWith fn ".d.ts" = false ∧ fn = f)
    ∧ d.code ∉ ignoredCodes
    ∧ (d.category = DiagCategory.error → d.code ∈ criticalErrorCodes) := by
  unfold keepDiagnostic at h
  by_cases hcat : d.category ≠ DiagCategory.error ∧ d.category ≠ DiagCategory.warning
  · rw [if_pos hcat] at h
    exact absurd h (by simp)
  · rw [if_neg hcat] at h
    cases hfn : d.fileName with
    | none =>
      simp only [hfn] at h
      refine ⟨by simp, ?_, ?_⟩
      · intro hmem
        rw [if_pos hmem] at h
        exact absurd h (by simp)
      · intro herr
        by_cases hmem : d.code ∈ ignoredCodes
        · rw [if_pos hmem] at h
          exact absurd h (by simp)
        · rw [if_neg hmem, if_pos herr] at h
          simpa using h
    | some fn =>
      simp only [hfn] at h
      by_cases hlib : (strIncludes fn "node_modules" || strIncludes fn "lib."
          || strEndsWith fn ".d.ts") = true
      · rw [if_pos hlib] at h
        exact absurd h (by simp)
      · rw [if_neg hlib] at h
        by_cases heq : fn == f
        · simp only [heq] at h
          have hsplit : strIncludes fn "node_modules" = false ∧
              strIncludes fn "lib." = false ∧ strEndsWith fn ".d.ts" = false := by
            constructor
            · by_contra hx
              exact hlib (by simp [eq_true_of_ne_false hx])
            constructor
            · by_contra hx
              exact hlib (by simp [eq_true_of_ne_false hx])
            · by_contra hx
              exact hlib (by simp [eq_true_of_ne_false hx])
          refine ⟨?_, ?_, ?_⟩
          · intro fn' hfn'
            have hinj : fn = fn' := by injection hfn'
            subst hinj
            exact ⟨hsplit.1, hsplit.2.1, hsplit.2.2, by simpa using heq⟩
          · intro hmem
            rw [if_pos hmem] at h
            exact absurd h (by simp)
          · intro herr
            by_cases hmem : d.code ∈ ignoredCodes
            · rw [if_pos hmem] at h
              exact absurd h (by simp)
            · rw [if_neg hmem, if_pos herr] at h
              simpa using h
        · have : (fn == f) = false := by
            cases hx : (fn == f) with
            | false => rfl
            | true => exact absurd (by simp [hx]) heq
          simp only [this] at h
          exact absurd h (by simp)

/-- C3: every diagnostic returned by the filter is scoped to the user's
file (never node_modules, bundled lib files, or `.d.ts` files), never
carries an ignored code, and a filtered list containing no error-severity
diagnostic never makes `transpileCode` abort. -/
theorem filter_scope_ignored_and_warnings (ds : List Diagnostic) (f : String) :
    (∀ d ∈ filterRelevantDiagnostics ds f, ∀ fn, d.fileName = some fn →
      strIncludes fn "node_modules" = false ∧ strIncludes fn "lib." = false ∧
      strEndsWith fn ".d.ts" = false ∧ fn = f)
    ∧ (∀ d ∈ filterRelevantDiagnostics ds f, d.code ∉ ignoredCodes)
    ∧ ((∀ d ∈ filterRelevantDiagnostics ds f, d.category ≠ DiagCategory.error) →
        compilationFails (filterRelevantDiagnostics ds f) = false) := by
  refine ⟨?_, ?_, ?_⟩
  · intro d hd
    exact (keepDiagnostic_spec (List.mem_filter.mp hd).2).1
  · intro d hd
    exact (keepDiagnostic_spec (List.mem_filter.mp hd).2).2.1
  · intro hall
    rw [compilationFails]
    rw [List.any_eq_false]
    intro d hd
    have := hall d hd
    simpa using this

/-- Witness for `filter_scope_ignored_and_warnings` at a concrete
diagnostic list: a warning-only filtered result never aborts the pipeline. -/
theorem filter_scope_ignored_and_warnings_witness :
    compilationFails (filterRelevantDiagnostics
      [⟨DiagCategory.warning, some "/proj/main.ts", 4711⟩,
       ⟨DiagCategory.error, some "/proj/main.ts", 9999⟩] "/proj/main.ts") = false :=
  (filter_scope_ignored_and_warnings
    [⟨DiagCategory.warning, some "/proj/main.ts", 4711⟩,
     ⟨DiagCategory.error, some "/proj/main.ts", 9999⟩] "/proj/main.ts").2.2
    (by decide)

/-- C10: an error-severity diagnostic survives the filter only if its code
is on the fixed critical-error allowlist; any error with another code is
suppressed (even entry-file-scoped, non-ignored ones), so such errors can
never halt the pipeline. -/
theorem filter_error_allowlist (ds : List Diagnostic) (f : String) :
    (∀ d ∈ filterRelevantDiagnostics ds f,
      d.category = DiagCategory.error → d.code ∈ criticalErrorCodes)
    ∧ (∀ d : Diagnostic, d.category = DiagCategory.error →
        d.code ∉ criticalErrorCodes → d ∉ filterRelevantDiagnostics ds f)
    ∧ ((∀ d ∈ ds, d.category = DiagCategory.error → d.code ∉ criticalErrorCodes) →
        compilationFails (filterRelevantDiagnostics ds f) = false) := by
  refine ⟨?_, ?_, ?_⟩
  · intro d hd
    exact (keepDiagnostic_spec (List.mem_filter.mp hd).2).2.2
  · intro d herr hcode hd
    exact hcode ((keepDiagnostic_spec (List.mem_filter.mp hd).2).2.2 herr)
  · intro hall
    rw [compilationFails]
    rw [List.any_eq_false]
    intro d hd
    have hmem := List.mem_filter.mp hd
    have hcrit := (keepDiagnostic_spec hmem.2).2.2
    by_cases herr : d.category = DiagCategory.error
    · exact absurd (hcrit herr) (hall d hmem.1 herr)
    · simpa using herr

/-- Witness for `filter_error_allowlist`: a concrete entry-file-scoped
error with code 2769 (not ignored, not on the allowlist) is suppressed. -/
theorem filter_error_allowlist_witness :
    (⟨DiagCategory.error, some "/proj/main.ts", 2769⟩ : Diagnostic) ∉
      filterRelevantDiagnostics
        [⟨DiagCategory.error, some "/proj/main.ts", 2769⟩] "/proj/main.ts" :=
  (filter_error_allowlist
    [⟨DiagCategory.error, some "/proj/main.ts", 2769⟩] "/proj/main.ts").2.1
    ⟨DiagCategory.error, some "/proj/main.ts", 2769⟩ (by decide) (by decide)

/-! ## Configuration resolution (`src/tsconfig.ts`, `TSConfigReader`) -/

/-- A compiler-option value (boolean flag, string-valued enum such as the
target, or a list such as `lib`). -/
inductive OptVal where
  | b (x : Bool)
  | s (x : String)
  | l (x : List String)
deriving DecidableEq, Repr

/-- A `ts.CompilerOptions` object: a partial map from option key to value
(JS object semantics). -/
def CompilerOptions := String → Option OptVal

/-- Build an options object from key/value pairs. -/
def optionsOfList (l : List (String × OptVal)) : CompilerOptions :=
  fun k => (l.find? (fun kv => kv.1 == k)).map (fun kv => kv.2)

/-- The fields of `TSConfigReader.getDefaultCompilerOptions`. -/
def defaultCompilerOptionsList : List (String × OptVal) :=
  [("target", OptVal.s "ES2022"),
   ("module", OptVal.s "ESNext"),
   ("lib", OptVal.l ["ES2022", "DOM"]),
   ("strict", OptVal.b true),
   ("noImplicitAny", OptVal.b true),
   ("strictNullChecks", OptVal.b true),
   ("strictFunctionTypes", OptVal.b true),
   ("strictBindCallApply", OptVal.b true),
   ("strictPropertyInitialization", OptVal.b true),
   ("noImplicitReturns", OptVal.b true),
   ("noFallthroughCasesInSwitch", OptVal.b true),
   ("noUncheckedIndexedAccess", OptVal.b true),
   ("exactOptionalPropertyTypes", OptVal.b true),
   ("noImplicitOverride", OptVal.b true),
   ("noPropertyAccessFromIndexSignature", OptVal.b true),
   ("allowUnusedLabels", OptVal.b false),
   ("allowUnreachableCode", OptVal.b false),
   ("skipLibCheck", OptVal.b true),
   ("declaration", OptVal.b false),
   ("declarationMap", OptVal.b false),
   ("sourceMap", OptVal.b false),
   ("removeComments", OptVal.b false),
   ("noEmit", OptVal.b true),
   ("isolatedModules", OptVal.b false),
   ("allowSyntheticDefaultImports", OptVal.b true),
   ("esModuleInterop", OptVal.b true),
   ("forceConsistentCasingInFileNames", OptVal.b true),
   ("moduleResolution", OptVal.s "Node10")]

/-- `TSConfigReader.getDefaultCompilerOptions`. -/
def getDefaultCompilerOptions : CompilerOptions :=
  optionsOfList defaultCompilerOptionsList

/-- The keys force-set by `mergeWithRequiredOptions`
(`const requiredOptions = { noEmit: true, skipLibCheck: true,
allowSyntheticDefaultImports: true, esModuleInterop: true }`). -/
def requiredOptionKeys : List String :=
  ["noEmit", "skipLibCheck", "allowSyntheticDefaultImports", "esModuleInterop"]

/-- `TSConfigReader.mergeWithRequiredOptions`:
`{ ...userOptions, ...requiredOptions }` — required options take precedence,
every other key keeps the user's value. -/
def mergeWithRequiredOptions (userOptions : CompilerOptions) : CompilerOptions :=
  fun k =>
    if k ∈ requiredOptionKeys then some (OptVal.b true) else userOptions k

/-- `TSConfigResult` of `src/tsconfig.ts`. -/
structure TSConfigResult where
  compilerOptions : CompilerOptions
  configPath : Option String
  isDefault : Bool

/-- `TSConfigReader.readConfigFile`. A failed read or parse — either a
`configFile.error` result or a thrown exception — degrades to the default
options (with a warning); a successful parse is merged with the required
options. -/
def readConfigFile (configPath : String)
    (parsed : Except String CompilerOptions) : TSConfigResult :=
  match parsed with
  | Except.error _ =>
    { compilerOptions := getDefaultCompilerOptions
      configPath := some configPath
      isDefault := true }
  | Except.ok userOptions =>
    { compilerOptions := mergeWithRequiredOptions userOptions
      configPath := some configPath
      isDefault := false }

/-- `TSConfigReader.findAndReadConfig`: `found` is the result of
`ts.findConfigFile` (the external search); `parse` models reading and
parsing the found file. No config file means default options. -/
def findAndReadConfig (found : Option String)
    (parse : String → Except String CompilerOptions) : TSConfigResult :=
  match found with
  | some configPath => readConfigFile configPath (parse configPath)
  | none =>
    { compilerOptions := getDefaultCompilerOptions
      configPath := none
      isDefault := true }

/-- C8: config resolution always returns options with `noEmit`,
`skipLibCheck`, `allowSyntheticDefaultImports` and `esModuleInterop` set to
`true`; user values survive for every other key; and a missing or unparsable
config file degrades to the default option set (never fails). -/
theorem config_resolution_spec (found : Option String)
    (parse : String → Except String CompilerOptions) :
    (∀ k ∈ requiredOptionKeys,
      (findAndReadConfig found parse).compilerOptions k = some (OptVal.b true))
    ∧ (∀ configPath user, found = some configPath → parse configPath = Except.ok user →
        ∀ k, k ∉ requiredOptionKeys →
          (findAndReadConfig found parse).compilerOptions k = user k)
    ∧ (∀ configPath e, found = some configPath → parse configPath = Except.error e →
        (findAndReadConfig found parse).compilerOptions = getDefaultCompilerOptions
        ∧ (findAndReadConfig found parse).isDefault = true)
    ∧ (found = none →
        (findAndReadConfig found parse).compilerOptions = getDefaultCompilerOptions
        ∧ (findAndReadConfig found parse).isDefault = true) := by
  refine ⟨?_, ?_, ?_, ?_⟩
  · intro k hk
    cases found with
    | none =>
      fin_cases hk <;> rfl
    | some configPath =>
      cases hp : parse configPath with
      | error e =>
        simp only [findAndReadConfig, readConfigFile, hp]
        fin_cases hk <;> rfl
      | ok user =>
        simp only [findAndReadConfig, readConfigFile, hp]
        fin_cases hk <;> rfl
  · intro configPath user hfound hp k hk
    subst hfound
    simp only [findAndReadConfig, readConfigFile, hp, mergeWithRequiredOptions]
    rw [if_neg hk]
  · intro configPath e hfound hp
    subst hfound
    simp [findAndReadConfig, readConfigFile, hp]
  · intro hfound
    subst hfound
    exact ⟨rfl, rfl⟩

/-- Witness for `config_resolution_spec`: a config file whose parse fails
yields the defaults, and `noEmit` is force-set on a successful parse that
tried to switch it off. -/
theorem config_resolution_spec_witness :
    (findAndReadConfig (some "/proj/tsconfig.json")
        (fun _ => Except.error "bad json")).compilerOptions
      = getDefaultCompilerOptions
    ∧ (findAndReadConfig (some "/proj/tsconfig.json")
        (fun _ => Except.ok (optionsOfList [("noEmit", OptVal.b false)]))).compilerOptions
        "noEmit" = some (OptVal.b true)
    ∧ (findAndReadConfig (some "/proj/tsconfig.json")
        (fun _ => Except.ok (optionsOfList [("strict", OptVal.b false)]))).compilerOptions
        "strict" = some (OptVal.b false) :=
  ⟨((config_resolution_spec (some "/proj/tsconfig.json")
      (fun _ => Except.error "bad json")).2.2.1 "/proj/tsconfig.json" "bad json"
      rfl rfl).1,
   (config_resolution_spec (some "/proj/tsconfig.json")
      (fun _ => Except.ok (optionsOfList [("noEmit", OptVal.b false)]))).1
      "noEmit" (by decide),
   (config_resolution_spec (some "/proj/tsconfig.json")
      (fun _ => Except.ok (optionsOfList [("strict", OptVal.b false)]))).2.1
      "/proj/tsconfig.json" (optionsOfList [("strict", OptVal.b false)])
      rfl rfl "strict" (by decide)⟩

/-! ## Import resolution (`ImportResolver`, import-resolver module) -/

/-- `resolve(sourceDir, p)` used as the key handed to `existsSync`; the
on-disk state is abstracted as an existence oracle over these keys. -/
def fsKey (sourceDir p : String) : String :=
  sourceDir ++ "/" ++ p

/-- The candidate extension list of `resolveRelativeImport`
(`const sourceExtensions = [...]`). -/
def sourceExtensions : List String :=
  [".ts", ".tsx", ".js", ".jsx", ".json", ".mjs", ".cjs"]

/-- The first loop of `resolveRelativeImport`
("First, try with exact extensions"): append each extension, return on the
first hit, rewriting `.ts`/`.tsx` to the format's target extension when the
output format is not `esm`. -/
def tryWithExtensions (ex : String → Bool) (importPath sourceDir format : String) :
    List String → Option String
  | [] => none
  | ext :: rest =>
    if ex (fsKey sourceDir (importPath ++ ext)) then
      if (ext == ".ts" || ext == ".tsx") && format != "esm" then
        some (importPath ++ (if format == "cjs" then ".cjs" else ".mjs"))
      else
        some (importPath ++ ext)
    else
      tryWithExtensions ex importPath sourceDir format rest

/-- The second loop of `resolveRelativeImport` ("Try index files"). -/
def tryIndexFiles (ex : String → Bool) (importPath sourceDir format : String) :
    List String → Option String
  | [] => none
  | ext :: rest =>
    if ex (fsKey sourceDir (importPath ++ "/index" ++ ext)) then
      if (ext == ".ts" || ext == ".tsx") && format != "esm" then
        some (importPath ++ "/index" ++ (if format == "cjs" then ".cjs" else ".mjs"))
      else
        some (importPath ++ "/index" ++ ext)
    else
      tryIndexFiles ex importPath sourceDir format rest

/-- `ImportResolver.resolveRelativeImport`: as-is if it carries an extension
and exists; else each source extension; else index files; else `null`. -/
def resolveRelativeImport (ex : String → Bool)
    (importPath sourceDir format : String) : Option String :=
  if strIncludes importPath "." && !strEndsWith importPath "."
      && ex (fsKey sourceDir importPath) then
    some importPath
  else
    match tryWithExtensions ex importPath sourceDir format sourceExtensions with
    | some r => some r
    | none =>
      match tryIndexFiles ex importPath sourceDir format sourceExtensions with
      | some r => some r
      | none => none

/-- One specifier occurrence inside `ImportResolver.preprocessImports`
(the regex-replace callback, at the level of the extracted specifier):
relative specifiers are rewritten only when `resolveRelativeImport`
succeeds; on `null` the original match is returned unchanged, and
non-relative specifiers are never touched. -/
def processImportSpecifier (ex : String → Bool)
    (sourceDir format importPath : String) : String :=
  if strStartsWith importPath "./" || strStartsWith importPath "../" then
    match resolveRelativeImport ex importPath sourceDir format with
    | some resolvedPath => resolvedPath
    | none => importPath
  else
    importPath

/-- C9: a specifier whose resolution returns `null` is emitted unchanged
by the preprocessing of imports — a failed resolution never produces a
rewritten specifier. -/
theorem unresolved_specifier_unchanged (ex : String → Bool)
    (sourceDir format importPath : String)
    (h : resolveRelativeImport ex importPath sourceDir format = none) :
    processImportSpecifier ex sourceDir format importPath = importPath := by
  unfold processImportSpecifier
  split
  · rw [h]
  · rfl

/-- Witness for `unresolved_specifier_unchanged`: on an empty filesystem,
the relative specifier `./missing` resolves to `null` and survives
preprocessing unchanged. -/
theorem unresolved_specifier_unchanged_witness :
    processImportSpecifier (fun _ => false) "/proj" "esm" "./missing" = "./missing" :=
  unresolved_specifier_unchanged (fun _ => false) "/proj" "esm" "./missing" (by rfl)

/-! ## Canonical paths and the TempManager path computations
(`src/transpiler/temp-manager.ts`) -/

/-- A canonical (resolved) absolute path: its segments from the single
filesystem root. -/
abbrev Path := List String

/-- `path.dirname` on a canonical absolute path. -/
def dirnameP (p : Path) : Path :=
  p.dropLast

/-- The bare filename of a path (Node `parse(p).name + parse(p).ext`). -/
def fileNameOf (p : Path) : String :=
  p.getLastD ""

/-- Render a path the way Node prints it (used where the code compares or
embeds paths as strings). -/
def pathToString (p : Path) : String :=
  "/" ++ String.intercalate "/" p

/-- `path.relative(base, target)` on canonical absolute paths: drop the
common prefix, then one `..` per remaining base segment followed by the
remaining target segments. -/
def relativeSegs : Path → Path → List String
  | [], t => t
  | b :: bs, [] => (b :: bs).map (fun _ => "..")
  | b :: bs, t :: ts =>
    if b = t then relativeSegs bs ts
    else (b :: bs).map (fun _ => "..") ++ (t :: ts)

/-- JS `relativePath.startsWith("..")` — the joined string starts with
`..` exactly when the first segment does. -/
def startsWithParentSeg (rel : List String) : Bool :=
  match rel.head? with
  | some s => strStartsWith s ".."
  | none => false

/-- `isAbsolute(relativePath)` for outputs of `relativeSegs`: in this
single-root path model `relative` never returns an absolute path (that is
the different-drive case on Windows), so this is constantly `false`. -/
def isAbsoluteRel (_ : List String) : Bool :=
  false

/-- `resolve(base, rel)`: apply the (possibly `..`-leading) relative
segments to `base`, normalizing `..` by dropping a segment. -/
def resolveRel (base : Path) (rel : List String) : Path :=
  rel.foldl (fun acc seg => if seg = ".." then acc.dropLast else acc ++ [seg]) base

/-- The index of the last `.` of a filename that is not its first
character, if any (Node `path.parse` extension splitting). -/
def lastDotIdx (cs : List Char) : Option Nat :=
  (List.range cs.length).foldl
    (fun acc i => if cs.getD i ' ' = '.' ∧ i ≠ 0 then some i else acc) none

/-- Node `path.parse` restricted to one segment: `(name, ext)`. -/
def splitExtC (s : String) : String × String :=
  match lastDotIdx s.data with
  | none => (s, "")
  | some i => (⟨s.data.take i⟩, ⟨s.data.drop i⟩)

/-- `const newExt = format === "cjs" ? ".cjs" : format === "esm" ? ".mjs" : ".js"`. -/
def newExtOf (format : String) : String :=
  if format == "cjs" then ".cjs" else if format == "esm" then ".mjs" else ".js"

/-- `TempManager.calculateTargetPath` (for copied, non-transpiled
dependencies): `resolve(tempDir, relative(sourceDir, filePath))`. -/
def calculateTargetPath (filePath sourceDir tempDir : Path) : Path :=
  resolveRel tempDir (relativeSegs sourceDir filePath)

/-- `TempManager.calculateTranspiledOutputPath`: mirror the path relative
to the base directory inside the session root with a format-specific
extension, except that a relative path leading outside the base directory
(or an absolute one) is flattened to the bare filename. -/
def calculateTranspiledOutputPath (filePath baseSourceDir tempDir : Path)
    (format : String) : Path :=
  let relativePath := relativeSegs baseSourceDir filePath
  let relativePath :=
    if startsWithParentSeg relativePath || isAbsoluteRel relativePath then
      -- Just use the filename if the file is outside the base directory
      [fileNameOf filePath]
    else
      relativePath
  let dir := relativePath.dropLast
  let base := relativePath.getLastD ""
  let name := (splitExtC base).1
  tempDir ++ (dir ++ [name ++ newExtOf format])

/-- Modelled from the spec (§4.6 edge case): the output-path policy the
spec describes — a dependency outside the entry directory subtree is still
mirrored through its relative path, parent-directory segments included, and
only an inexpressible relative path (different drive/root) is flattened. -/
def calculateTranspiledOutputPathSpec (filePath baseSourceDir tempDir : Path)
    (format : String) : Path :=
  let relativePath := relativeSegs baseSourceDir filePath
  let relativePath :=
    if isAbsoluteRel relativePath then [fileNameOf filePath] else relativePath
  let dir := relativePath.dropLast
  let base := relativePath.getLastD ""
  let name := (splitExtC base).1
  tempDir ++ (dir ++ [name ++ newExtOf format])

/-- C5 counterexample: a dependency one level above the entry directory has
an expressible relative path (`../shared.ts`), yet the code flattens it into
the session root instead of mirroring the parent-directory segment as the
spec describes. -/
theorem out_of_tree_not_mirrored :
    calculateTranspiledOutputPath ["home", "proj", "shared.ts"]
      ["home", "proj", "app"] ["tmp", "sess"] "esm" = ["tmp", "sess", "shared.mjs"]
    ∧ calculateTranspiledOutputPathSpec ["home", "proj", "shared.ts"]
      ["home", "proj", "app"] ["tmp", "sess"] "esm"
      = ["tmp", "sess", "..", "shared.mjs"]
    ∧ calculateTranspiledOutputPath ["home", "proj", "shared.ts"]
      ["home", "proj", "app"] ["tmp", "sess"] "esm"
      ≠ calculateTranspiledOutputPathSpec ["home", "proj", "shared.ts"]
        ["home", "proj", "app"] ["tmp", "sess"] "esm" := by
  refine ⟨by decide, by decide, by decide⟩

/-- C5 amended: any dependency whose relative path from the base directory
starts with `..` (i.e. lies outside the entry directory subtree) is written
flat into the session root under its own filename with rewritten extension;
only dependencies inside the subtree have their relative path mirrored. -/
theorem transpiled_output_path_policy (filePath baseSourceDir tempDir : Path)
    (format : String) :
    (startsWithParentSeg (relativeSegs baseSourceDir filePath) = true →
      calculateTranspiledOutputPath filePath baseSourceDir tempDir format
        = tempDir ++ [(splitExtC (fileNameOf filePath)).1 ++ newExtOf format])
    ∧ (startsWithParentSeg (relativeSegs baseSourceDir filePath) = false →
      calculateTranspiledOutputPath filePath baseSourceDir tempDir format
        = tempDir ++ ((relativeSegs baseSourceDir filePath).dropLast
            ++ [(splitExtC ((relativeSegs baseSourceDir filePath).getLastD "")).1
                ++ newExtOf format])) := by
  constructor
  · intro h
    simp [calculateTranspiledOutputPath, h, isAbsoluteRel]
  · intro h
    simp [calculateTranspiledOutputPath, h, isAbsoluteRel]

/-- Witness for `transpiled_output_path_policy` at the out-of-tree
dependency of the counterexample. -/
theorem transpiled_output_path_policy_witness :
    calculateTranspiledOutputPath ["home", "proj", "shared.ts"]
      ["home", "proj", "app"] ["tmp", "sess"] "esm" = ["tmp", "sess", "shared.mjs"] := by
  have h := (transpiled_output_path_policy ["home", "proj", "shared.ts"]
    ["home", "proj", "app"] ["tmp", "sess"] "esm").1 (by decide)
  simpa using h

/-! ## Temp-session cleanup
(`TempManager.cleanup` and `TempManager.cleanupDirectory`) -/

mutual
/-- A filesystem node: a plain file or a directory with named children. -/
inductive FSNode where
  | file
  | dir (children : FSChildren)
/-- The ordered child list of a directory (`readdirSync` order). -/
inductive FSChildren where
  | nil
  | cons (name : String) (node : FSNode) (rest : FSChildren)
end

/-- A filesystem-mutation event, in execution order. -/
inductive FSEvent where
  | unlink (p : Path)
  | rmdir (p : Path)
deriving DecidableEq, Repr

/-- The path an event acts on. -/
def FSEvent.path : FSEvent → Path
  | unlink p => p
  | rmdir p => p

mutual
/-- The deletion trace of `TempManager.cleanupDirectory(dirPath)`: child
files are unlinked, child directories recursively cleaned, then the
directory itself is removed (`rmdirSync` last). -/
def cleanupNodeTrace : Path → FSNode → List FSEvent
  | p, FSNode.file => [FSEvent.unlink p]
  | p, FSNode.dir cs => cleanupChildrenTrace p cs ++ [FSEvent.rmdir p]
/-- The trace of the `for (const file of readdirSync(dirPath))` loop. -/
def cleanupChildrenTrace : Path → FSChildren → List FSEvent
  | _, FSChildren.nil => []
  | p, FSChildren.cons n c rest =>
    cleanupNodeTrace (p ++ [n]) c ++ cleanupChildrenTrace p rest
end

/-- Find the first child with the given name. -/
def findChild : FSChildren → String → Option FSNode
  | FSChildren.nil, _ => none
  | FSChildren.cons n c rest, s => if n == s then some c else findChild rest s

/-- Look a path up in a tree. -/
def lookupAt : Path → FSNode → Option FSNode
  | [], g => some g
  | _ :: _, FSNode.file => none
  | s :: rest, FSNode.dir cs =>
    match findChild cs s with
    | some c => lookupAt rest c
    | none => none

/-- `existsSync`. -/
def existsAt (p : Path) (g : FSNode) : Bool :=
  (lookupAt p g).isSome

/-- Drop every child with the given name. -/
def removeChild : FSChildren → String → FSChildren
  | FSChildren.nil, _ => FSChildren.nil
  | FSChildren.cons n c rest, s =>
    if n == s then removeChild rest s else FSChildren.cons n c (removeChild rest s)

mutual
/-- Remove the node at a (non-empty) path from a tree. -/
def removeAt : Path → FSNode → FSNode
  | [], g => g
  | _ :: _, FSNode.file => FSNode.file
  | [s], FSNode.dir cs => FSNode.dir (removeChild cs s)
  | s :: r :: rest, FSNode.dir cs => FSNode.dir (removeAtChildren (r :: rest) s cs)
termination_by p _ => (p.length, 0, 0)
/-- Remove, inside every child named `s`, the node at the remaining path. -/
def removeAtChildren : Path → String → FSChildren → FSChildren
  | _, _, FSChildren.nil => FSChildren.nil
  | q, s, FSChildren.cons n c t =>
    if n == s then FSChildren.cons n (removeAt q c) (removeAtChildren q s t)
    else FSChildren.cons n c (removeAtChildren q s t)
termination_by q _ cs => (q.length, 1, sizeOf cs)
end

/-- The names of a child list. -/
def childNames : FSChildren → List String
  | FSChildren.nil => []
  | FSChildren.cons n _ rest => n :: childNames rest

mutual
/-- Wellformedness of a real directory tree: sibling names are distinct. -/
def nodeWF : FSNode → Bool
  | FSNode.file => true
  | FSNode.dir cs => (childNames cs).Nodup && childrenWF cs
/-- Wellformedness of every node in a child list. -/
def childrenWF : FSChildren → Bool
  | FSChildren.nil => true
  | FSChildren.cons _ c rest => nodeWF c && childrenWF rest
end

/-- A trace respects innermost-first deletion: once a directory has been
removed, no later event touches that directory or anything beneath it —
equivalently, everything inside a directory is deleted before the
directory itself. -/
def innermostFirst (tr : List FSEvent) : Prop :=
  ∀ l q r, tr = l ++ FSEvent.rmdir q :: r → ∀ e ∈ r, ¬ (q <+: FSEvent.path e)

/-- Every event of a trace lies strictly below `p`. -/
def eventsUnder (p : Path) (es : List FSEvent) : Prop :=
  ∀ e ∈ es, ∃ t, FSEvent.path e = p ++ t ∧ t ≠ []

theorem innermostFirst_nil : innermostFirst [] := by
  intro l q r h e he
  exact absurd h (by simp)

theorem innermostFirst_single_unlink (p : Path) :
    innermostFirst [FSEvent.unlink p] := by
  intro l q r h e he
  rcases l with _ | ⟨x, l⟩
  · simp at h
  · rw [List.cons_append] at h
    have := (List.cons.injEq _ _ _ _).mp h
    have h2 := this.2
    exact absurd h2.symm (by simp)

/-- Appending traces preserves innermost-first when no directory removed in
the first trace covers a path touched by the second trace. -/
theorem innermostFirst_append {xs ys : List FSEvent}
    (hx : innermostFirst xs) (hy : innermostFirst ys)
    (hdisj : ∀ q, FSEvent.rmdir q ∈ xs → ∀ e ∈ ys, ¬ (q <+: FSEvent.path e)) :
    innermostFirst (xs ++ ys) := by
  intro l q r h e he
  rcases List.append_eq_append_iff.mp h with ⟨a', _, ha2⟩ | ⟨c', hc1, hc2⟩
  · -- the split point lies inside ys
    exact hy a' q r ha2 e he
  · -- the split point lies inside xs: rmdir q :: r = c' ++ ys
    rcases c' with _ | ⟨x, c''⟩
    · simp only [List.nil_append] at hc2
      exact hy [] q r hc2.symm e he
    · rw [List.cons_append] at hc2
      have hinj := (List.cons.injEq _ _ _ _).mp hc2
      have hx1 : x = FSEvent.rmdir q := hinj.1.symm
      have hr : r = c'' ++ ys := hinj.2
      subst hx1
      rw [hr] at he
      rcases List.mem_append.mp he with hec | hey
      · exact hx l q c'' (by rw [hc1]) e hec
      · have hqin : FSEvent.rmdir q ∈ xs := by
          rw [hc1]
          exact List.mem_append.mpr (Or.inr (by simp))
        exact hdisj q hqin e hey

/-- Closing a directory trace with its own `rmdir` preserves
innermost-first provided all previous events lie strictly below it. -/
theorem innermostFirst_snoc_rmdir {xs : List FSEvent} {p : Path}
    (hx : innermostFirst xs) (hunder : eventsUnder p xs) :
    innermostFirst (xs ++ [FSEvent.rmdir p]) := by
  intro l q r h e he
  rcases List.append_eq_append_iff.mp h with ⟨a', _, ha2⟩ | ⟨c', hc1, hc2⟩
  · -- [rmdir p] = a' ++ rmdir q :: r, so r is empty
    rcases a' with _ | ⟨x, a''⟩
    · simp only [List.nil_append] at ha2
      have := (List.cons.injEq _ _ _ _).mp ha2
      rw [← this.2] at he
      exact absurd he (by simp)
    · rw [List.cons_append] at ha2
      have := (List.cons.injEq _ _ _ _).mp ha2
      exact absurd (List.append_eq_nil.mp this.2.symm).2 (by simp)
  · -- rmdir q :: r = c' ++ [rmdir p]
    rcases c' with _ | ⟨x, c''⟩
    · simp only [List.nil_append] at hc2
      have := (List.cons.injEq _ _ _ _).mp hc2
      rw [this.2] at he
      exact absurd he (by simp)
    · rw [List.cons_append] at hc2
      have hinj := (List.cons.injEq _ _ _ _).mp hc2
      have hx1 : x = FSEvent.rmdir q := hinj.1.symm
      have hr : r = c'' ++ [FSEvent.rmdir p] := hinj.2
      subst hx1
      rw [hr] at he
      rcases List.mem_append.mp he with hec | hep
      · exact hx l q c'' (by rw [hc1]) e hec
      · have hee : e = FSEvent.rmdir p := by simpa using hep
        subst hee
        have hqin : FSEvent.rmdir q ∈ xs := by
          rw [hc1]
          exact List.mem_append.mpr (Or.inr (by simp))
        rcases hunder _ hqin with ⟨t, ht, htne⟩
        intro hpre
        rcases hpre with ⟨u, hu⟩
        simp only [FSEvent.path] at ht hu
        rw [ht] at hu
        have hlen := congrArg List.length hu
        rw [List.append_assoc] at hlen
        simp only [List.length_append] at hlen
        have : t.length = 0 ∧ u.length = 0 := by omega
        exact htne (List.length_eq_zero.mp this.1)

mutual
/-- Every event of `cleanupDirectory`'s trace lies at or below the root. -/
theorem nodeTrace_paths (p : Path) (n : FSNode) :
    ∀ e ∈ cleanupNodeTrace p n, ∃ t, FSEvent.path e = p ++ t := by
  match n with
  | FSNode.file =>
    intro e he
    have : e = FSEvent.unlink p := by simpa [cleanupNodeTrace] using he
    exact ⟨[], by simp [this, FSEvent.path]⟩
  | FSNode.dir cs =>
    intro e he
    rw [cleanupNodeTrace] at he
    rcases List.mem_append.mp he with hc | hl
    · rcases childrenTrace_paths p cs e hc with ⟨n', t, _, ht⟩
      exact ⟨n' :: t, ht⟩
    · have : e = FSEvent.rmdir p := by simpa using hl
      exact ⟨[], by simp [this, FSEvent.path]⟩
/-- Every event of a child-loop trace lies strictly below the parent,
under the name of one of the children. -/
theorem childrenTrace_paths (p : Path) (cs : FSChildren) :
    ∀ e ∈ cleanupChildrenTrace p cs,
      ∃ n' t, n' ∈ childNames cs ∧ FSEvent.path e = p ++ n' :: t := by
  match cs with
  | FSChildren.nil =>
    intro e he
    exact absurd he (by simp [cleanupChildrenTrace])
  | FSChildren.cons nm c rest =>
    intro e he
    rw [cleanupChildrenTrace] at he
    rcases List.mem_append.mp he with hc | hr
    · rcases nodeTrace_paths (p ++ [nm]) c e hc with ⟨t, ht⟩
      exact ⟨nm, t, by simp [childNames], by simpa using ht⟩
    · rcases childrenTrace_paths p rest e hr with ⟨n', t, hn', ht⟩
      exact ⟨n', t, by simp [childNames, hn'], ht⟩
end

mutual
/-- `cleanupDirectory` deletes innermost-first on a wellformed tree. -/
theorem nodeTrace_innermost (p : Path) (n : FSNode) (h : nodeWF n = true) :
    innermostFirst (cleanupNodeTrace p n) := by
  match n with
  | FSNode.file =>
    rw [cleanupNodeTrace]
    exact innermostFirst_single_unlink p
  | FSNode.dir cs =>
    rw [cleanupNodeTrace]
    rw [nodeWF, Bool.and_eq_true] at h
    apply innermostFirst_snoc_rmdir
    · exact childrenTrace_innermost p cs h.2 (by simpa using h.1)
    · intro e he
      rcases childrenTrace_paths p cs e he with ⟨n', t, _, ht⟩
      exact ⟨n' :: t, ht, by simp⟩
/-- The child loop of `cleanupDirectory` deletes innermost-first when the
children are wellformed and sibling names are distinct. -/
theorem childrenTrace_innermost (p : Path) (cs : FSChildren)
    (h : childrenWF cs = true) (hnd : (childNames cs).Nodup) :
    innermostFirst (cleanupChildrenTrace p cs) := by
  match cs with
  | FSChildren.nil =>
    rw [cleanupChildrenTrace]
    exact innermostFirst_nil
  | FSChildren.cons nm c rest =>
    rw [cleanupChildrenTrace]
    rw [childrenWF, Bool.and_eq_true] at h
    rw [childNames, List.nodup_cons] at hnd
    apply innermostFirst_append
    · exact nodeTrace_innermost (p ++ [nm]) c h.1
    · exact childrenTrace_innermost p rest h.2 hnd.2
    · intro q hq e he
      rcases nodeTrace_paths (p ++ [nm]) c (FSEvent.rmdir q) hq with ⟨t, ht⟩
      rcases childrenTrace_paths p rest e he with ⟨n', t', hn', ht'⟩
      intro ⟨u, hu⟩
      simp only [FSEvent.path] at ht
      rw [ht, ht'] at hu
      rw [List.append_assoc, List.append_assoc] at hu
      have := List.append_cancel_left hu
      simp only [List.cons_append, List.singleton_append] at this
      have hnm : nm = n' := ((List.cons.injEq _ _ _ _).mp this).1
      exact hnd.1 (hnm ▸ hn')
end

/-- The `TempManager` tracking state. -/
structure TempState where
  tempFiles : List Path
  tempDirs : List Path
  fileMapping : List (Path × Path)
  currentTempDir : Option Path

/-- One iteration of the temp-file loop of `cleanup()`:
`if (existsSync(tempFile)) unlinkSync(tempFile)` (missing paths tolerated). -/
def unlinkStep (acc : FSNode × List FSEvent) (f : Path) : FSNode × List FSEvent :=
  if existsAt f acc.1 then (removeAt f acc.1, acc.2 ++ [FSEvent.unlink f])
  else acc

/-- One iteration of the temp-directory loop of `cleanup()`:
`if (existsSync(tempDir)) cleanupDirectory(tempDir)` (missing paths
tolerated); `cleanupDirectory` removes the whole subtree, emitting its
recursive trace. -/
def rmdirStep (acc : FSNode × List FSEvent) (d : Path) : FSNode × List FSEvent :=
  match lookupAt d acc.1 with
  | some node => (removeAt d acc.1, acc.2 ++ cleanupNodeTrace d node)
  | none => acc

theorem findChild_removeChild_self (cs : FSChildren) (s : String) :
    findChild (removeChild cs s) s = none := by
  match cs with
  | FSChildren.nil => rfl
  | FSChildren.cons n c rest =>
    rw [removeChild]
    by_cases h : (n == s) = true
    · rw [if_pos h]
      exact findChild_removeChild_self rest s
    · rw [if_neg h]
      rw [findChild, if_neg h]
      exact findChild_removeChild_self rest s

theorem findChild_removeChild_ne (cs : FSChildren) (s x : String)
    (hx : (x == s) = false) :
    findChild (removeChild cs s) x = findChild cs x := by
  match cs with
  | FSChildren.nil => rfl
  | FSChildren.cons n c rest =>
    rw [removeChild]
    by_cases h : (n == s) = true
    · rw [if_pos h]
      rw [findChild]
      have hnx : (n == x) = false := by
        have hns : n = s := by simpa using h
        have hxs : ¬ (x = s) := by simpa using hx
        simp [hns]
        intro hsx
        exact hxs hsx.symm
      rw [if_neg (by simp [hnx])]
      exact findChild_removeChild_ne rest s x hx
    · rw [if_neg h]
      rw [findChild, findChild]
      by_cases hnx : (n == x) = true
      · rw [if_pos hnx, if_pos hnx]
      · rw [if_neg hnx, if_neg hnx]
        exact findChild_removeChild_ne rest s x hx

theorem findChild_removeAtChildren_self (q : Path) (s : String) (cs : FSChildren) :
    findChild (removeAtChildren q s cs) s = (findChild cs s).map (removeAt q) := by
  match cs with
  | FSChildren.nil =>
    rw [removeAtChildren]
    rfl
  | FSChildren.cons n c rest =>
    rw [removeAtChildren]
    by_cases h : (n == s) = true
    · rw [if_pos h]
      rw [findChild, if_pos h, findChild, if_pos h]
      rfl
    · rw [if_neg h]
      rw [findChild, if_neg h, findChild, if_neg h]
      exact findChild_removeAtChildren_self q s rest

theorem findChild_removeAtChildren_ne (q : Path) (s x : String) (cs : FSChildren)
    (hx : (x == s) = false) :
    findChild (removeAtChildren q s cs) x = findChild cs x := by
  match cs with
  | FSChildren.nil =>
    rw [removeAtChildren]
  | FSChildren.cons n c rest =>
    rw [removeAtChildren]
    by_cases h : (n == s) = true
    · rw [if_pos h]
      rw [findChild, findChild]
      have hnx : (n == x) = false := by
        have hns : n = s := by simpa using h
        have hxs : ¬ (x = s) := by simpa using hx
        simp [hns]
        intro hsx
        exact hxs hsx.symm
      rw [if_neg (by simp [hnx]), if_neg (by simp [hnx])]
      exact findChild_removeAtChildren_ne q s x rest hx
    · rw [if_neg h]
      rw [findChild, findChild]
      by_cases hnx : (n == x) = true
      · rw [if_pos hnx, if_pos hnx]
      · rw [if_neg hnx, if_neg hnx]
        exact findChild_removeAtChildren_ne q s x rest hx

/-- Removal never creates paths: anything present after `removeAt` was
present before. -/
theorem lookupAt_removeAt_isSome (d p : Path) (g : FSNode)
    (h : (lookupAt p (removeAt d g)).isSome = true) :
    (lookupAt p g).isSome = true := by
  match d with
  | [] =>
    rw [removeAt] at h
    exact h
  | [s] =>
    match g with
    | FSNode.file =>
      rw [removeAt] at h
      exact h
    | FSNode.dir cs =>
      rw [removeAt] at h
      match p with
      | [] => rfl
      | x :: p' =>
        rw [lookupAt] at h
        rw [lookupAt]
        by_cases hx : (x == s) = true
        · have hxs : x = s := by simpa using hx
          rw [hxs, findChild_removeChild_self] at h
          exact Bool.noConfusion h
        · rw [findChild_removeChild_ne cs s x (by simpa using hx)] at h
          exact h
  | s :: r :: rest =>
    match g with
    | FSNode.file =>
      rw [removeAt] at h
      exact h
    | FSNode.dir cs =>
      rw [removeAt] at h
      match p with
      | [] => rfl
      | x :: p' =>
        rw [lookupAt] at h
        rw [lookupAt]
        by_cases hx : (x == s) = true
        · have hxs : x = s := by simpa using hx
          rw [hxs]
          rw [hxs, findChild_removeAtChildren_self] at h
          match hfc : findChild cs s with
          | none =>
            rw [hfc] at h
            exact Bool.noConfusion h
          | some c0 =>
            rw [hfc] at h
            exact lookupAt_removeAt_isSome (r :: rest) p' c0 h
        · rw [findChild_removeAtChildren_ne (r :: rest) s x cs (by simpa using hx)] at h
          exact h

/-- Removing a non-root path really removes it. -/
theorem existsAt_removeAt_self (d : Path) (g : FSNode) (hne : d ≠ []) :
    existsAt d (removeAt d g) = false := by
  match d with
  | [] => exact absurd rfl hne
  | [s] =>
    match g with
    | FSNode.file =>
      rw [removeAt]
      rfl
    | FSNode.dir cs =>
      rw [removeAt]
      rw [existsAt, lookupAt, findChild_removeChild_self]
      rfl
  | s :: r :: rest =>
    match g with
    | FSNode.file =>
      rw [removeAt]
      rfl
    | FSNode.dir cs =>
      rw [removeAt]
      rw [existsAt, lookupAt, findChild_removeAtChildren_self]
      match hfc : findChild cs s with
      | none => rfl
      | some c0 => exact existsAt_removeAt_self (r :: rest) c0 (by simp)

theorem existsAt_unlinkStep_false (q : Path) (acc : FSNode × List FSEvent)
    (f : Path) (h : existsAt q acc.1 = false) :
    existsAt q (unlinkStep acc f).1 = false := by
  rw [unlinkStep]
  split
  · simp only
    cases hx : existsAt q (removeAt f acc.1) with
    | false => rfl
    | true =>
      rw [existsAt] at hx h
      rw [lookupAt_removeAt_isSome f q acc.1 hx] at h
      exact h
  · exact h

theorem existsAt_rmdirStep_false (q : Path) (acc : FSNode × List FSEvent)
    (d : Path) (h : existsAt q acc.1 = false) :
    existsAt q (rmdirStep acc d).1 = false := by
  rw [rmdirStep]
  match hl : lookupAt d acc.1 with
  | some node =>
    simp only
    cases hx : existsAt q (removeAt d acc.1) with
    | false => rfl
    | true =>
      rw [existsAt] at hx h
      rw [lookupAt_removeAt_isSome d q acc.1 hx] at h
      exact h
  | none => exact h

theorem foldl_rmdirStep_absent (dirs : List Path) (acc : FSNode × List FSEvent)
    (q : Path) (h : existsAt q acc.1 = false) :
    existsAt q (dirs.foldl rmdirStep acc).1 = false := by
  induction dirs generalizing acc with
  | nil => exact h
  | cons d ds ih =>
    rw [List.foldl_cons]
    exact ih (rmdirStep acc d) (existsAt_rmdirStep_false q acc d h)

theorem foldl_rmdirStep_removes (dirs : List Path) (acc : FSNode × List FSEvent)
    (root : Path) (hin : root ∈ dirs) (hne : root ≠ []) :
    existsAt root (dirs.foldl rmdirStep acc).1 = false := by
  induction dirs generalizing acc with
  | nil => exact absurd hin (by simp)
  | cons d ds ih =>
    rw [List.foldl_cons]
    by_cases hd : d = root
    · subst hd
      apply foldl_rmdirStep_absent
      rw [rmdirStep]
      match hl : lookupAt d acc.1 with
      | some node =>
        simp only
        exact existsAt_removeAt_self d acc.1 hne
      | none =>
        rw [existsAt, hl]
        rfl
    · have hmem : root ∈ ds := by
        rcases List.mem_cons.mp hin with h1 | h2
        · exact absurd h1.symm hd
        · exact h2
      exact ih (rmdirStep acc d) hmem

theorem foldl_unlinkStep_trace (files : List Path) (acc : FSNode × List FSEvent) :
    ∃ extra, (files.foldl unlinkStep acc).2 = acc.2 ++ extra ∧
      ∀ e ∈ extra, ∃ f ∈ files, e = FSEvent.unlink f := by
  induction files generalizing acc with
  | nil => exact ⟨[], by simp, by simp⟩
  | cons f fs ih =>
    rw [List.foldl_cons]
    by_cases hex : existsAt f acc.1 = true
    · have hstep : unlinkStep acc f = (removeAt f acc.1, acc.2 ++ [FSEvent.unlink f]) := by
        rw [unlinkStep, if_pos hex]
      rcases ih (unlinkStep acc f) with ⟨extra, he, hall⟩
      refine ⟨FSEvent.unlink f :: extra, ?_, ?_⟩
      · rw [he, hstep]
        simp
      · intro e hein
        rcases List.mem_cons.mp hein with h1 | h2
        · exact ⟨f, by simp, h1⟩
        · rcases hall e h2 with ⟨f', hf', he'⟩
          exact ⟨f', by simp [hf'], he'⟩
    · have hstep : unlinkStep acc f = acc := by
        rw [unlinkStep, if_neg hex]
      rw [hstep]
      rcases ih acc with ⟨extra, he, hall⟩
      refine ⟨extra, he, ?_⟩
      intro e hein
      rcases hall e hein with ⟨f', hf', he'⟩
      exact ⟨f', by simp [hf'], he'⟩

theorem foldl_rmdirStep_trace (dirs : List Path) (acc : FSNode × List FSEvent) :
    ∃ extra, (dirs.foldl rmdirStep acc).2 = acc.2 ++ extra := by
  induction dirs generalizing acc with
  | nil => exact ⟨[], by simp⟩
  | cons d ds ih =>
    rw [List.foldl_cons]
    match hl : lookupAt d acc.1 with
    | some node =>
      have hstep : rmdirStep acc d = (removeAt d acc.1, acc.2 ++ cleanupNodeTrace d node) := by
        rw [rmdirStep, hl]
      rw [hstep]
      rcases ih (removeAt d acc.1, acc.2 ++ cleanupNodeTrace d node) with ⟨extra, he⟩
      exact ⟨cleanupNodeTrace d node ++ extra, by rw [he]; simp⟩
    | none =>
      have hstep : rmdirStep acc d = acc := by
        rw [rmdirStep, hl]
      rw [hstep]
      exact ih acc

/-- `TempManager.cleanup()`: unlink every recorded temp file that still
exists, then recursively delete every recorded session directory that
still exists (via `cleanupDirectory`), then clear all tracking state.
Returns the new tracking state, the resulting filesystem, and the ordered
trace of deletion events. -/
def cleanup (st : TempState) (g : FSNode) : TempState × FSNode × List FSEvent :=
  let step1 := st.tempFiles.foldl unlinkStep (g, [])
  let step2 := st.tempDirs.foldl rmdirStep step1
  ({ tempFiles := [], tempDirs := [], fileMapping := [], currentTempDir := none },
   step2.1, step2.2)

/-- C7: `cleanup()` deletes the recorded temp files first and then the
recorded session directories; within a (wellformed) directory,
`cleanupDirectory` removes contents before the directory itself
(innermost-first); after `cleanup()` the recorded session root is absent
from the filesystem and every piece of tracking state is cleared; and a
second `cleanup()` is a harmless no-op (missing paths are tolerated). -/
theorem cleanup_spec (st : TempState) (g : FSNode) (root : Path)
    (hroot : root ∈ st.tempDirs) (hne : root ≠ []) :
    existsAt root (cleanup st g).2.1 = false
    ∧ cleanup (cleanup st g).1 (cleanup st g).2.1
        = ((cleanup st g).1, (cleanup st g).2.1, [])
    ∧ (cleanup st g).1.tempFiles = [] ∧ (cleanup st g).1.tempDirs = []
    ∧ (cleanup st g).1.fileMapping = [] ∧ (cleanup st g).1.currentTempDir = none
    ∧ (∃ fileEvents dirEvents, (cleanup st g).2.2 = fileEvents ++ dirEvents
        ∧ ∀ e ∈ fileEvents, ∃ f ∈ st.tempFiles, e = FSEvent.unlink f)
    ∧ (∀ p n, nodeWF n = true → innermostFirst (cleanupNodeTrace p n)) := by
  refine ⟨?_, rfl, rfl, rfl, rfl, rfl, ?_, ?_⟩
  · exact foldl_rmdirStep_removes st.tempDirs
      (st.tempFiles.foldl unlinkStep (g, [])) root hroot hne
  · rcases foldl_unlinkStep_trace st.tempFiles (g, []) with ⟨fe, hfe, hall⟩
    rcases foldl_rmdirStep_trace st.tempDirs
      (st.tempFiles.foldl unlinkStep (g, [])) with ⟨de, hde⟩
    refine ⟨fe, de, ?_, hall⟩
    show (st.tempDirs.foldl rmdirStep (st.tempFiles.foldl unlinkStep (g, []))).2
      = fe ++ de
    rw [hde, hfe]
    simp
  · exact fun p n h => nodeTrace_innermost p n h

/-- A concrete session filesystem: `/tmp/sess1/main.mjs`. -/
def exSessionFS : FSNode :=
  FSNode.dir (FSChildren.cons "tmp"
    (FSNode.dir (FSChildren.cons "sess1"
      (FSNode.dir (FSChildren.cons "main.mjs" FSNode.file FSChildren.nil))
      FSChildren.nil))
    FSChildren.nil)

/-- The tracking state after a successful run in `exSessionFS`. -/
def exTempState : TempState :=
  { tempFiles := [["tmp", "sess1", "main.mjs"]]
    tempDirs := [["tmp", "sess1"]]
    fileMapping := [(["proj", "main.ts"], ["tmp", "sess1", "main.mjs"])]
    currentTempDir := some ["tmp", "sess1"] }

/-- Witness for `cleanup_spec`: after cleaning up the concrete session, the
session root `/tmp/sess1` is gone. -/
theorem cleanup_spec_witness :
    existsAt ["tmp", "sess1"] (cleanup exTempState exSessionFS).2.1 = false :=
  (cleanup_spec exTempState exSessionFS ["tmp", "sess1"]
    (by simp [exTempState]) (by simp)).1

/-! ## The transpilation session walk
(`TypeScriptTranspiler.transpileToTempFile`,
`TypeScriptTranspiler.transpileFileWithDependencies`,
`DependencyManager.transpileDependencies`,
`DependencyManager.copyDependencyFile`) -/

/-- JS `s.toLowerCase()` (ASCII). -/
def lowerStr (s : String) : String :=
  String.mk (s.data.map Char.toLower)

/-- `TranspilerUtils.isTypeScriptFile`:
`extname(filePath).toLowerCase()` is `.ts` or `.tsx`. -/
def isTypeScriptFile (p : Path) : Bool :=
  let ext := lowerStr (splitExtC (fileNameOf p)).2
  ext == ".ts" || ext == ".tsx"

/-- One resolved dependency (`DependencyInfo` of dependency-manager.ts). -/
structure DepInfo where
  resolvedPath : Path
  needsTranspilation : Bool
deriving DecidableEq, Repr

/-- `resolveAndAddDependency` records
`needsTranspilation = TranspilerUtils.isTypeScriptFile(resolvedPath)` for
each resolved path. -/
def mkDepInfo (p : Path) : DepInfo :=
  ⟨p, isTypeScriptFile p⟩

/-- A source file as the walk sees it: its raw text, the diagnostics the
external analyzer reports for it, the converted output of the external
converter for it (`none` models a conversion failure of
`preprocessImportsForTranspilation` + esbuild), and its resolved local
dependency paths in source order (the result of
`extractDependenciesFromSourceFile` + `ts.resolveModuleName`, both external
services). -/
structure SrcFile where
  src : String
  diagnostics : List Diagnostic
  conv : Option String
  deps : List Path
deriving DecidableEq, Repr

/-- The filesystem of source files, keyed by canonical path. -/
abbrev SrcFS := List (Path × SrcFile)

/-- Look up a source file by canonical path. -/
def SrcFS.find? (fs : SrcFS) (p : Path) : Option SrcFile :=
  (List.find? (fun kv => kv.1 == p) fs).map (fun kv => kv.2)

/-- `TypeScriptTranspiler.transpileCode` on one file: type-check and apply
`filterRelevantDiagnostics`; error-severity survivors abort; otherwise hand
the (preprocessed) source to the external converter, whose failure also
aborts. -/
def transpileCodeM (file : SrcFile) (userFileName : String) : Except String String :=
  let relevant := filterRelevantDiagnostics file.diagnostics userFileName
  if compilationFails relevant then
    Except.error "TypeScript compilation failed"
  else
    match file.conv with
    | some js => Except.ok js
    | none => Except.error "Transpilation failed"

/-- JS `Map.prototype.set` on an association list. -/
def setMapping (m : List (Path × Path)) (k v : Path) : List (Path × Path) :=
  if (List.find? (fun kv => kv.1 == k) m).isSome then
    m.map (fun kv => if kv.1 == k then (kv.1, v) else kv)
  else
    m ++ [(k, v)]

/-- JS `Map.prototype.get` (`TempManager.getMappedPath`). -/
def getMapping (m : List (Path × Path)) (k : Path) : Option Path :=
  (List.find? (fun kv => kv.1 == k) m).map (fun kv => kv.2)

/-- The debug header written in front of every transpiled file:
`// Generated by Nehonix TSR from: <resolvedPath>` and
`// Session directory: <tempDir>`. -/
def debugComment (resolvedPath tempDir : Path) : String :=
  "// Generated by Nehonix TSR from: " ++ pathToString resolvedPath ++
    "\n// Session directory: " ++ pathToString tempDir ++ "\n\n"

/-- The mutable state threaded by reference through the walk: the shared
`processedFiles` set, the `TempManager` bookkeeping (session dirs, temp
files, original-to-session mapping), the files written to disk with their
contents, and an instrumentation log `events` recording each original path
at the moment its file is actually converted or copied (one entry per
`writeFileSync`/`copyFileSync`). -/
structure WalkState where
  processed : List Path
  tempDirs : List Path
  tempFiles : List Path
  mapping : List (Path × Path)
  written : List (Path × String)
  events : List Path
deriving DecidableEq, Repr

/-- `DependencyManager.copyDependencyFile`: dedup on the shared set, mirror
the path relative to the importing file's directory, copy byte-for-byte. A
missing source makes `copyFileSync` throw (the error carries the mutated
state, since the set was already updated). -/
def copyDependencyFile (fs : SrcFS) (filePath tempDir sourceFile : Path)
    (st : WalkState) : Except WalkState WalkState :=
  if filePath ∈ st.processed then
    Except.ok st
  else
    let st1 := { st with processed := filePath :: st.processed }
    let sourceFileDir := dirnameP sourceFile
    let targetPath := calculateTargetPath filePath sourceFileDir tempDir
    match fs.find? filePath with
    | none => Except.error st1
    | some file =>
      Except.ok { st1 with
        written := st1.written ++ [(targetPath, file.src)]
        tempFiles := st1.tempFiles ++ [targetPath]
        mapping := setMapping st1.mapping filePath targetPath
        events := st1.events ++ [filePath] }

/-- The type of the `transpileCallback` parameter of
`DependencyManager.transpileDependencies` (in core.ts the orchestrator
passes `transpileFileWithDependencies` itself): arguments are the file, the
session root, the base (entry) directory, and the shared state. -/
abbrev TranspileCallback :=
  Path → Path → Path → WalkState → Option (Except WalkState (Path × WalkState))

/-- The `for (const dep of dependencies)` loop of
`DependencyManager.transpileDependencies`: skip already-processed paths,
recurse through the callback for files that need transpilation, copy the
rest. A thrown error (`Except.error`) aborts the rest of the loop. -/
def processDeps (fs : SrcFS) (callback : TranspileCallback) :
    List DepInfo → Path → Path → Path → WalkState →
      Option (Except WalkState WalkState)
  | [], _, _, _, st => some (Except.ok st)
  | dep :: rest, sourceFilePath, tempDir, baseDir, st =>
    if dep.resolvedPath ∈ st.processed then
      processDeps fs callback rest sourceFilePath tempDir baseDir st
    else if dep.needsTranspilation then
      match callback dep.resolvedPath tempDir baseDir st with
      | none => none
      | some (Except.error st') => some (Except.error st')
      | some (Except.ok (_, st')) =>
        processDeps fs callback rest sourceFilePath tempDir baseDir st'
    else
      match copyDependencyFile fs dep.resolvedPath tempDir sourceFilePath st with
      | Except.error st' => some (Except.error st')
      | Except.ok st' =>
        processDeps fs callback rest sourceFilePath tempDir baseDir st'

/-- `DependencyManager.transpileDependencies`: re-read the source file (a
missing file only warns and returns), then run the dependency loop — the
whole body sits in a try/catch whose handler logs a warning and returns
normally, so an error thrown inside the loop is swallowed here. -/
def transpileDependencies (fs : SrcFS) (callback : TranspileCallback)
    (sourceFilePath tempDir baseDir : Path) (st : WalkState) :
    Option WalkState :=
  match fs.find? sourceFilePath with
  | none => some st
  | some file =>
    match processDeps fs callback (file.deps.map mkDepInfo)
        sourceFilePath tempDir baseDir st with
    | none => none
    | some (Except.ok st') => some st'
    | some (Except.error st') => some st'

/-- `TypeScriptTranspiler.transpileFileWithDependencies`, fuel-indexed
(the fuel bounds the nesting depth of recursive callback invocations;
`none` = out of fuel, never reached with enough fuel; `Except.error` = a
thrown exception carrying the state mutated so far). Already-processed
files return their mapped session path immediately; otherwise the file is
marked processed, read, converted (`transpileCode` — a type-check failure
or converter failure throws), written with the debug header, recorded, and
its dependencies processed with this function itself as the callback. -/
def transpileFileWithDependencies (fs : SrcFS) (format : String) :
    Nat → Path → Path → Path → WalkState →
      Option (Except WalkState (Path × WalkState))
  | 0, _, _, _, _ => none
  | fuel + 1, filePath, tempDir, mainFileDir, st =>
    if filePath ∈ st.processed then
      some (Except.ok ((getMapping st.mapping filePath).getD filePath, st))
    else
      let st1 := { st with processed := filePath :: st.processed }
      match fs.find? filePath with
      | none => some (Except.error st1)
      | some file =>
        match transpileCodeM file (pathToString filePath) with
        | Except.error _ => some (Except.error st1)
        | Except.ok js =>
          let outputPath :=
            calculateTranspiledOutputPath filePath mainFileDir tempDir format
          let content := debugComment filePath tempDir ++ js
          let st2 := { st1 with
            written := st1.written ++ [(outputPath, content)]
            tempFiles := st1.tempFiles ++ [outputPath]
            mapping := setMapping st1.mapping filePath outputPath
            events := st1.events ++ [filePath] }
          match transpileDependencies fs
              (transpileFileWithDependencies fs format fuel)
              filePath tempDir mainFileDir st2 with
          | none => none
          | some st3 => some (Except.ok (outputPath, st3))

/-- `TypeScriptTranspiler.transpileToTempFile`: create the session
directory first (`createTempSession` — the unique name generation is
external, so the session root is a parameter), then process the entry file
with a fresh shared `processedFiles` set, the entry file's directory as the
base for relative-path mirroring. -/
def transpileToTempFile (fs : SrcFS) (format : String) (filePath : Path)
    (tempDir : Path) (fuel : Nat) : Option (Except WalkState (Path × WalkState)) :=
  let st0 : WalkState :=
    { processed := [], tempDirs := [tempDir], tempFiles := [], mapping := [],
      written := [], events := [] }
  let mainFileDir := dirnameP filePath
  transpileFileWithDependencies fs format fuel filePath tempDir mainFileDir st0

/-! ## Walk bookkeeping: state extractors, path universe, fuel bound -/

/-- The state carried by a callback result (the shared objects are mutated
in place, so a thrown error carries the same state as a success would). -/
def stateOfR : Except WalkState (Path × WalkState) → WalkState
  | Except.error st => st
  | Except.ok r => r.2

/-- The state carried by a copy result. -/
def stateOfE : Except WalkState WalkState → WalkState
  | Except.error st => st
  | Except.ok st => st

/-- Every path the walk can ever process: the entry, the keys of the
filesystem, and every resolved dependency path. -/
def allPathsList (fs : SrcFS) (entry : Path) : List Path :=
  entry :: (fs.map (fun kv => kv.1) ++ fs.flatMap (fun kv => kv.2.deps))

/-- The same universe as a finite set. -/
def allPathsFinset (fs : SrcFS) (entry : Path) : Finset Path :=
  (allPathsList fs entry).toFinset

/-- How many paths of the universe are still unprocessed. -/
def remainingCount (fs : SrcFS) (entry : Path) (st : WalkState) : Nat :=
  ((allPathsFinset fs entry).filter (fun p => p ∉ st.processed)).card

/-- Enough fuel to finish any walk over `fs` from `entry`. -/
def fuelBound (fs : SrcFS) (entry : Path) : Nat :=
  (allPathsFinset fs entry).card + 1

theorem find?_mem {fs : SrcFS} {p : Path} {f : SrcFile}
    (hf : fs.find? p = some f) : (p, f) ∈ fs := by
  rw [SrcFS.find?] at hf
  match hkv : List.find? (fun kv => kv.1 == p) fs with
  | none =>
    rw [hkv] at hf
    exact absurd hf (by simp)
  | some kv =>
    rw [hkv] at hf
    have hmem := List.mem_of_find?_eq_some hkv
    have hpred := List.find?_some hkv
    have hk : kv.1 = p := by simpa using hpred
    have hv : kv.2 = f := by simpa using hf
    have : kv = (p, f) := by
      cases kv
      simp only at hk hv
      rw [hk, hv]
    rw [← this]
    exact hmem

theorem entry_mem_allPaths (fs : SrcFS) (entry : Path) :
    entry ∈ allPathsFinset fs entry := by
  rw [allPathsFinset, List.mem_toFinset, allPathsList]
  exact List.mem_cons_self _ _

theorem dep_mem_allPaths {fs : SrcFS} {p : Path} {f : SrcFile}
    (hf : fs.find? p = some f) {d : Path} (hd : d ∈ f.deps)
    (entry : Path) : d ∈ allPathsFinset fs entry := by
  rw [allPathsFinset, List.mem_toFinset, allPathsList]
  refine List.mem_cons_of_mem _ (List.mem_append.mpr (Or.inr ?_))
  exact List.mem_flatMap.mpr ⟨(p, f), find?_mem hf, hd⟩

theorem remainingCount_le (fs : SrcFS) (entry : Path) {st st' : WalkState}
    (h : ∀ x, x ∈ st.processed → x ∈ st'.processed) :
    remainingCount fs entry st' ≤ remainingCount fs entry st := by
  apply Finset.card_le_card
  intro x hx
  rw [Finset.mem_filter] at hx ⊢
  refine ⟨hx.1, fun hc => hx.2 (h x hc)⟩

theorem remainingCount_lt (fs : SrcFS) (entry : Path) {st st' : WalkState}
    {p : Path} (h : ∀ x, x ∈ st.processed → x ∈ st'.processed)
    (hp : p ∈ allPathsFinset fs entry) (hnp : p ∉ st.processed)
    (hp' : p ∈ st'.processed) :
    remainingCount fs entry st' < remainingCount fs entry st := by
  apply Finset.card_lt_card
  rw [Finset.ssubset_iff_of_subset]
  · exact ⟨p, Finset.mem_filter.mpr ⟨hp, hnp⟩, by
      rw [Finset.mem_filter]
      intro hx
      exact hx.2 hp'⟩
  · intro x hx
    rw [Finset.mem_filter] at hx ⊢
    refine ⟨hx.1, fun hc => hx.2 (h x hc)⟩

/-! ## Walk ladder, part 1: monotonicity of the shared state -/

/-- Monotonicity contract for a transpile callback: the shared processed
set and the event log only grow, and the requested path ends up processed. -/
def CBMono (cb : TranspileCallback) : Prop :=
  ∀ p td bd st r, cb p td bd st = some r →
    (∀ x, x ∈ st.processed → x ∈ (stateOfR r).processed)
    ∧ p ∈ (stateOfR r).processed
    ∧ (∀ x, x ∈ st.events → x ∈ (stateOfR r).events)

theorem copy_mono {fs : SrcFS} {p td src : Path} {st : WalkState}
    {r : Except WalkState WalkState} (h : copyDependencyFile fs p td src st = r) :
    (∀ x, x ∈ st.processed → x ∈ (stateOfE r).processed)
    ∧ p ∈ (stateOfE r).processed
    ∧ (∀ x, x ∈ st.events → x ∈ (stateOfE r).events) := by
  rw [copyDependencyFile] at h
  by_cases hp : p ∈ st.processed
  · rw [if_pos hp] at h
    subst h
    exact ⟨fun x hx => hx, hp, fun x hx => hx⟩
  · rw [if_neg hp] at h
    match hfc : fs.find? p with
    | none =>
      rw [hfc] at h
      subst h
      exact ⟨fun x hx => by simp [stateOfE, hx], by simp [stateOfE],
        fun x hx => hx⟩
    | some file =>
      rw [hfc] at h
      subst h
      refine ⟨fun x hx => by simp [stateOfE, hx], by simp [stateOfE],
        fun x hx => by simp [stateOfE, hx]⟩

theorem processDeps_mono {fs : SrcFS} {cb : TranspileCallback} (hcb : CBMono cb) :
    ∀ (deps : List DepInfo) (src td bd : Path) (st : WalkState)
      (r : Except WalkState WalkState),
      processDeps fs cb deps src td bd st = some r →
      (∀ x, x ∈ st.processed → x ∈ (stateOfE r).processed)
      ∧ (∀ x, x ∈ st.events → x ∈ (stateOfE r).events)
      ∧ (∀ st', r = Except.ok st' → ∀ d ∈ deps, d.resolvedPath ∈ st'.processed) := by
  intro deps
  induction deps with
  | nil =>
    intro src td bd st r h
    rw [processDeps] at h
    have : Except.ok st = r := by simpa using h
    subst this
    refine ⟨fun x hx => hx, fun x hx => hx, ?_⟩
    intro st' he d hd
    exact absurd hd (by simp)
  | cons dep rest ih =>
    intro src td bd st r h
    rw [processDeps] at h
    by_cases hp : dep.resolvedPath ∈ st.processed
    · rw [if_pos hp] at h
      rcases ih src td bd st r h with ⟨h1, h2, h3⟩
      refine ⟨h1, h2, ?_⟩
      intro st' he d hd
      rcases List.mem_cons.mp hd with rfl | hd'
      · have : st' = stateOfE r := by rw [he]; rfl
        rw [this]
        exact h1 _ hp
      · exact h3 st' he d hd'
    · rw [if_neg hp] at h
      by_cases ht : dep.needsTranspilation = true
      · rw [if_pos ht] at h
        match hc : cb dep.resolvedPath td bd st with
        | none =>
          rw [hc] at h
          exact absurd h (by simp)
        | some (Except.error st1) =>
          rw [hc] at h
          have : Except.error st1 = r := by simpa using h
          subst this
          rcases hcb _ _ _ _ _ hc with ⟨m1, m2, m3⟩
          refine ⟨m1, m3, ?_⟩
          intro st' he
          exact absurd he (by simp)
        | some (Except.ok (out, st1)) =>
          rw [hc] at h
          simp only at h
          rcases hcb _ _ _ _ _ hc with ⟨m1, m2, m3⟩
          rcases ih src td bd st1 r h with ⟨h1, h2, h3⟩
          refine ⟨fun x hx => h1 x (m1 x hx), fun x hx => h2 x (m3 x hx), ?_⟩
          intro st' he d hd
          rcases List.mem_cons.mp hd with rfl | hd'
          · have : st' = stateOfE r := by rw [he]; rfl
            rw [this]
            exact h1 _ m2
          · exact h3 st' he d hd'
      · rw [if_neg ht] at h
        match hc : copyDependencyFile fs dep.resolvedPath td src st with
        | Except.error st1 =>
          rw [hc] at h
          have : Except.error st1 = r := by simpa using h
          subst this
          rcases copy_mono hc with ⟨m1, m2, m3⟩
          refine ⟨m1, m3, ?_⟩
          intro st' he
          exact absurd he (by simp)
        | Except.ok st1 =>
          rw [hc] at h
          rcases copy_mono hc with ⟨m1, m2, m3⟩
          rcases ih src td bd st1 r h with ⟨h1, h2, h3⟩
          refine ⟨fun x hx => h1 x (m1 x hx), fun x hx => h2 x (m3 x hx), ?_⟩
          intro st' he d hd
          rcases List.mem_cons.mp hd with rfl | hd'
          · have : st' = stateOfE r := by rw [he]; rfl
            rw [this]
            exact h1 _ m2
          · exact h3 st' he d hd'

theorem transpileDependencies_mono {fs : SrcFS} {cb : TranspileCallback}
    (hcb : CBMono cb) {src td bd : Path} {st st' : WalkState}
    (h : transpileDependencies fs cb src td bd st = some st') :
    (∀ x, x ∈ st.processed → x ∈ st'.processed)
    ∧ (∀ x, x ∈ st.events → x ∈ st'.events) := by
  rw [transpileDependencies] at h
  match hfc : fs.find? src with
  | none =>
    rw [hfc] at h
    have : st = st' := by simpa using h
    subst this
    exact ⟨fun x hx => hx, fun x hx => hx⟩
  | some file =>
    simp only [hfc] at h
    match hpd : processDeps fs cb (file.deps.map mkDepInfo) src td bd st with
    | none =>
      rw [hpd] at h
      exact absurd h (by simp)
    | some (Except.ok st1) =>
      rw [hpd] at h
      have : st1 = st' := by simpa using h
      subst this
      rcases processDeps_mono hcb _ _ _ _ _ _ hpd with ⟨h1, h2, _⟩
      exact ⟨h1, h2⟩
    | some (Except.error st1) =>
      rw [hpd] at h
      have : st1 = st' := by simpa using h
      subst this
      rcases processDeps_mono hcb _ _ _ _ _ _ hpd with ⟨h1, h2, _⟩
      exact ⟨h1, h2⟩

theorem transpileFile_mono (fs : SrcFS) (format : String) :
    ∀ fuel, CBMono (transpileFileWithDependencies fs format fuel) := by
  intro fuel
  induction fuel with
  | zero =>
    intro p td bd st r h
    rw [transpileFileWithDependencies] at h
    exact absurd h (by simp)
  | succ fuel ih =>
    intro p td bd st r h
    rw [transpileFileWithDependencies] at h
    by_cases hp : p ∈ st.processed
    · rw [if_pos hp] at h
      have : Except.ok ((getMapping st.mapping p).getD p, st) = r := by simpa using h
      subst this
      exact ⟨fun x hx => hx, hp, fun x hx => hx⟩
    · rw [if_neg hp] at h
      simp only at h
      match hfc : fs.find? p with
      | none =>
        rw [hfc] at h
        have : Except.error { st with processed := p :: st.processed } = r := by
          simpa using h
        subst this
        exact ⟨fun x hx => by simp [stateOfR, hx], by simp [stateOfR],
          fun x hx => hx⟩
      | some file =>
        simp only [hfc] at h
        match hcode : transpileCodeM file (pathToString p) with
        | Except.error msg =>
          rw [hcode] at h
          have : Except.error { st with processed := p :: st.processed } = r := by
            simpa using h
          subst this
          exact ⟨fun x hx => by simp [stateOfR, hx], by simp [stateOfR],
            fun x hx => hx⟩
        | Except.ok js =>
          rw [hcode] at h
          simp only at h
          match htd : transpileDependencies fs
              (transpileFileWithDependencies fs format fuel) p td bd
              { st with
                processed := p :: st.processed
                written := st.written ++
                  [(calculateTranspiledOutputPath p bd td format,
                    debugComment p td ++ js)]
                tempFiles := st.tempFiles ++
                  [calculateTranspiledOutputPath p bd td format]
                mapping := setMapping st.mapping p
                  (calculateTranspiledOutputPath p bd td format)
                events := st.events ++ [p] } with
          | none =>
            rw [htd] at h
            exact absurd h (by simp)
          | some st3 =>
            rw [htd] at h
            have : Except.ok (calculateTranspiledOutputPath p bd td format, st3) = r := by
              simpa using h
            subst this
            rcases transpileDependencies_mono ih htd with ⟨h1, h2⟩
            refine ⟨fun x hx => h1 x (by simp [hx]), h1 p (by simp),
              fun x hx => h2 x (by simp [hx])⟩

/-! ## Walk ladder, part 2: fuel sufficiency (termination) -/

theorem processDeps_sufficient (fs : SrcFS) (entry : Path) (cb : TranspileCallback)
    (F : Nat) (hmono : CBMono cb)
    (hsuff : ∀ p td bd st, p ∈ allPathsFinset fs entry →
      remainingCount fs entry st + 1 ≤ F → cb p td bd st ≠ none) :
    ∀ (deps : List DepInfo) (src td bd : Path) (st : WalkState),
      (∀ d ∈ deps, d.resolvedPath ∈ allPathsFinset fs entry) →
      remainingCount fs entry st + 1 ≤ F →
      processDeps fs cb deps src td bd st ≠ none := by
  intro deps
  induction deps with
  | nil =>
    intro src td bd st _ _
    rw [processDeps]
    simp
  | cons dep rest ih =>
    intro src td bd st hdeps hF
    rw [processDeps]
    by_cases hp : dep.resolvedPath ∈ st.processed
    · rw [if_pos hp]
      exact ih src td bd st (fun d hd => hdeps d (List.mem_cons_of_mem _ hd)) hF
    · rw [if_neg hp]
      have hdp : dep.resolvedPath ∈ allPathsFinset fs entry :=
        hdeps dep (List.mem_cons_self _ _)
      by_cases ht : dep.needsTranspilation = true
      · rw [if_pos ht]
        match hc : cb dep.resolvedPath td bd st with
        | none => exact absurd hc (hsuff _ td bd st hdp hF)
        | some (Except.error st1) => simp
        | some (Except.ok (out, st1)) =>
          rcases hmono _ _ _ _ _ hc with ⟨m1, m2, _⟩
          have hlt : remainingCount fs entry st1 < remainingCount fs entry st :=
            remainingCount_lt fs entry m1 hdp hp m2
          exact ih src td bd st1
            (fun d hd => hdeps d (List.mem_cons_of_mem _ hd)) (by omega)
      · rw [if_neg ht]
        match hc : copyDependencyFile fs dep.resolvedPath td src st with
        | Except.error st1 => simp
        | Except.ok st1 =>
          rcases copy_mono hc with ⟨m1, _, _⟩
          have hle : remainingCount fs entry st1 ≤ remainingCount fs entry st :=
            remainingCount_le fs entry m1
          exact ih src td bd st1
            (fun d hd => hdeps d (List.mem_cons_of_mem _ hd)) (by omega)

theorem transpileDependencies_sufficient (fs : SrcFS) (entry : Path)
    (cb : TranspileCallback) (F : Nat) (hmono : CBMono cb)
    (hsuff : ∀ p td bd st, p ∈ allPathsFinset fs entry →
      remainingCount fs entry st + 1 ≤ F → cb p td bd st ≠ none) :
    ∀ (src td bd : Path) (st : WalkState),
      remainingCount fs entry st + 1 ≤ F →
      transpileDependencies fs cb src td bd st ≠ none := by
  intro src td bd st hF
  rw [transpileDependencies]
  match hfc : fs.find? src with
  | none => simp
  | some file =>
    have hdeps : ∀ d ∈ file.deps.map mkDepInfo,
        d.resolvedPath ∈ allPathsFinset fs entry := by
      intro d hd
      rcases List.mem_map.mp hd with ⟨q, hq, rfl⟩
      exact dep_mem_allPaths hfc hq entry
    show (match processDeps fs cb (file.deps.map mkDepInfo) src td bd st with
      | none => none
      | some (Except.ok st') => some st'
      | some (Except.error st') => some st') ≠ none
    match hpd : processDeps fs cb (file.deps.map mkDepInfo) src td bd st with
    | none =>
      exact absurd hpd
        (processDeps_sufficient fs entry cb F hmono hsuff _ src td bd st hdeps hF)
    | some (Except.ok st1) => simp
    | some (Except.error st1) => simp

theorem transpileFile_sufficient (fs : SrcFS) (format : String) (entry : Path) :
    ∀ (fuel : Nat) (p td bd : Path) (st : WalkState),
      p ∈ allPathsFinset fs entry →
      remainingCount fs entry st + 1 ≤ fuel →
      transpileFileWithDependencies fs format fuel p td bd st ≠ none := by
  intro fuel
  induction fuel with
  | zero =>
    intro p td bd st hp hF
    exact absurd hF (by omega)
  | succ fuel ih =>
    intro p td bd st hp hF
    rw [transpileFileWithDependencies]
    by_cases hmem : p ∈ st.processed
    · rw [if_pos hmem]
      simp
    · rw [if_neg hmem]
      match hfc : fs.find? p with
      | none => simp [hfc]
      | some file =>
        match hcode : transpileCodeM file (pathToString p) with
        | Except.error msg => simp [hfc, hcode]
        | Except.ok js =>
          simp only [hfc, hcode]
          have hnewR : remainingCount fs entry
              { st with
                processed := p :: st.processed
                tempFiles := st.tempFiles ++
                  [calculateTranspiledOutputPath p bd td format]
                mapping := setMapping st.mapping p
                  (calculateTranspiledOutputPath p bd td format)
                written := st.written ++
                  [(calculateTranspiledOutputPath p bd td format,
                    debugComment p td ++ js)]
                events := st.events ++ [p] }
              < remainingCount fs entry st := by
            apply remainingCount_lt fs entry (p := p)
            · intro x hx
              simp [hx]
            · exact hp
            · exact hmem
            · simp
          have hdns := transpileDependencies_sufficient fs entry
            (transpileFileWithDependencies fs format fuel) fuel
            (transpileFile_mono fs format fuel) ih p td bd
            { st with
              processed := p :: st.processed
              tempFiles := st.tempFiles ++
                [calculateTranspiledOutputPath p bd td format]
              mapping := setMapping st.mapping p
                (calculateTranspiledOutputPath p bd td format)
              written := st.written ++
                [(calculateTranspiledOutputPath p bd td format,
                  debugComment p td ++ js)]
              events := st.events ++ [p] }
            (by omega)
          match htd : transpileDependencies fs
              (transpileFileWithDependencies fs format fuel) p td bd
              { st with
                processed := p :: st.processed
                tempFiles := st.tempFiles ++
                  [calculateTranspiledOutputPath p bd td format]
                mapping := setMapping st.mapping p
                  (calculateTranspiledOutputPath p bd td format)
                written := st.written ++
                  [(calculateTranspiledOutputPath p bd td format,
                    debugComment p td ++ js)]
                events := st.events ++ [p] } with
          | none => exact absurd htd hdns
          | some st3 => simp

/-! ## Walk ladder, part 3: the event log is duplicate-free -/

/-- Invariant tying the event log to the processed set: no path is logged
twice, and logged paths are processed. -/
def EventsInv (st : WalkState) : Prop :=
  st.events.Nodup ∧ ∀ e ∈ st.events, e ∈ st.processed

/-- Contract: a callback preserves the event-log invariant. -/
def CBEvents (cb : TranspileCallback) : Prop :=
  ∀ p td bd st r, cb p td bd st = some r → EventsInv st → EventsInv (stateOfR r)

theorem copy_events {fs : SrcFS} {p td src : Path} {st : WalkState}
    {r : Except WalkState WalkState} (h : copyDependencyFile fs p td src st = r)
    (hinv : EventsInv st) : EventsInv (stateOfE r) := by
  rw [copyDependencyFile] at h
  by_cases hp : p ∈ st.processed
  · rw [if_pos hp] at h
    subst h
    exact hinv
  · rw [if_neg hp] at h
    match hfc : fs.find? p with
    | none =>
      rw [hfc] at h
      subst h
      refine ⟨hinv.1, fun e he => ?_⟩
      simp only [stateOfE]
      exact List.mem_cons_of_mem _ (hinv.2 e he)
    | some file =>
      rw [hfc] at h
      subst h
      constructor
      · simp only [stateOfE]
        rw [List.nodup_append]
        refine ⟨hinv.1, by simp, ?_⟩
        intro e he
        simp only [List.mem_singleton]
        intro hcon
        subst hcon
        exact hp (hinv.2 e he)
      · intro e he
        simp only [stateOfE] at he ⊢
        rcases List.mem_append.mp he with h1 | h2
        · exact List.mem_cons_of_mem _ (hinv.2 e h1)
        · have : e = p := by simpa using h2
          subst this
          exact List.mem_cons_self _ _

theorem processDeps_events {fs : SrcFS} {cb : TranspileCallback}
    (hcb : CBEvents cb) :
    ∀ (deps : List DepInfo) (src td bd : Path) (st : WalkState)
      (r : Except WalkState WalkState),
      processDeps fs cb deps src td bd st = some r →
      EventsInv st → EventsInv (stateOfE r) := by
  intro deps
  induction deps with
  | nil =>
    intro src td bd st r h hinv
    rw [processDeps] at h
    have : Except.ok st = r := by simpa using h
    subst this
    exact hinv
  | cons dep rest ih =>
    intro src td bd st r h hinv
    rw [processDeps] at h
    by_cases hp : dep.resolvedPath ∈ st.processed
    · rw [if_pos hp] at h
      exact ih src td bd st r h hinv
    · rw [if_neg hp] at h
      by_cases ht : dep.needsTranspilation = true
      · rw [if_pos ht] at h
        match hc : cb dep.resolvedPath td bd st with
        | none =>
          rw [hc] at h
          exact absurd h (by simp)
        | some (Except.error st1) =>
          rw [hc] at h
          have : Except.error st1 = r := by simpa using h
          subst this
          exact hcb _ _ _ _ _ hc hinv
        | some (Except.ok (out, st1)) =>
          rw [hc] at h
          simp only at h
          exact ih src td bd st1 r h (hcb _ _ _ _ _ hc hinv)
      · rw [if_neg ht] at h
        match hc : copyDependencyFile fs dep.resolvedPath td src st with
        | Except.error st1 =>
          rw [hc] at h
          have : Except.error st1 = r := by simpa using h
          subst this
          exact copy_events hc hinv
        | Except.ok st1 =>
          rw [hc] at h
          exact ih src td bd st1 r h (copy_events hc hinv)

theorem transpileDependencies_events {fs : SrcFS} {cb : TranspileCallback}
    (hcb : CBEvents cb) {src td bd : Path} {st st' : WalkState}
    (h : transpileDependencies fs cb src td bd st = some st')
    (hinv : EventsInv st) : EventsInv st' := by
  rw [transpileDependencies] at h
  match hfc : fs.find? src with
  | none =>
    rw [hfc] at h
    have : st = st' := by simpa using h
    subst this
    exact hinv
  | some file =>
    simp only [hfc] at h
    match hpd : processDeps fs cb (file.deps.map mkDepInfo) src td bd st with
    | none =>
      rw [hpd] at h
      exact absurd h (by simp)
    | some (Except.ok st1) =>
      rw [hpd] at h
      have : st1 = st' := by simpa using h
      subst this
      exact processDeps_events hcb _ _ _ _ _ _ hpd hinv
    | some (Except.error st1) =>
      rw [hpd] at h
      have : st1 = st' := by simpa using h
      subst this
      exact processDeps_events hcb _ _ _ _ _ _ hpd hinv

theorem transpileFile_events (fs : SrcFS) (format : String) :
    ∀ fuel, CBEvents (transpileFileWithDependencies fs format fuel) := by
  intro fuel
  induction fuel with
  | zero =>
    intro p td bd st r h
    rw [transpileFileWithDependencies] at h
    exact absurd h (by simp)
  | succ fuel ih =>
    intro p td bd st r h hinv
    rw [transpileFileWithDependencies] at h
    by_cases hp : p ∈ st.processed
    · rw [if_pos hp] at h
      have : Except.ok ((getMapping st.mapping p).getD p, st) = r := by simpa using h
      subst this
      exact hinv
    · rw [if_neg hp] at h
      simp only at h
      match hfc : fs.find? p with
      | none =>
        rw [hfc] at h
        have : Except.error { st with processed := p :: st.processed } = r := by
          simpa using h
        subst this
        exact ⟨hinv.1, fun e he => List.mem_cons_of_mem _ (hinv.2 e he)⟩
      | some file =>
        simp only [hfc] at h
        match hcode : transpileCodeM file (pathToString p) with
        | Except.error msg =>
          rw [hcode] at h
          have : Except.error { st with processed := p :: st.processed } = r := by
            simpa using h
          subst this
          exact ⟨hinv.1, fun e he => List.mem_cons_of_mem _ (hinv.2 e he)⟩
        | Except.ok js =>
          rw [hcode] at h
          simp only at h
          have hinv2 : EventsInv
              { st with
                processed := p :: st.processed
                tempFiles := st.tempFiles ++
                  [calculateTranspiledOutputPath p bd td format]
                mapping := setMapping st.mapping p
                  (calculateTranspiledOutputPath p bd td format)
                written := st.written ++
                  [(calculateTranspiledOutputPath p bd td format,
                    debugComment p td ++ js)]
                events := st.events ++ [p] } := by
            constructor
            · simp only
              rw [List.nodup_append]
              refine ⟨hinv.1, by simp, ?_⟩
              intro e he
              simp only [List.mem_singleton]
              intro hcon
              subst hcon
              exact hp (hinv.2 e he)
            · intro e he
              simp only at he ⊢
              rcases List.mem_append.mp he with h1 | h2
              · exact List.mem_cons_of_mem _ (hinv.2 e h1)
              · have : e = p := by simpa using h2
                subst this
                exact List.mem_cons_self _ _
          match htd : transpileDependencies fs
              (transpileFileWithDependencies fs format fuel) p td bd
              { st with
                processed := p :: st.processed
                tempFiles := st.tempFiles ++
                  [calculateTranspiledOutputPath p bd td format]
                mapping := setMapping st.mapping p
                  (calculateTranspiledOutputPath p bd td format)
                written := st.written ++
                  [(calculateTranspiledOutputPath p bd td format,
                    debugComment p td ++ js)]
                events := st.events ++ [p] } with
          | none =>
            rw [htd] at h
            exact absurd h (by simp)
          | some st3 =>
            rw [htd] at h
            have : Except.ok (calculateTranspiledOutputPath p bd td format, st3) = r := by
              simpa using h
            subst this
            exact transpileDependencies_events ih htd hinv2

/-! ## Walk ladder, part 4: wellformed graphs are fully covered -/

/-- A wellformed source graph: every file type-checks and converts, and
every resolved dependency path is present on disk. -/
def WellFormedB (fs : SrcFS) : Bool :=
  fs.all (fun kv =>
    (match transpileCodeM kv.2 (pathToString kv.1) with
     | Except.ok _ => true
     | Except.error _ => false)
    && kv.2.deps.all (fun d => (fs.find? d).isSome))

theorem wellFormed_code {fs : SrcFS} (hWF : WellFormedB fs = true)
    {p : Path} {f : SrcFile} (hf : fs.find? p = some f) :
    ∃ js, transpileCodeM f (pathToString p) = Except.ok js := by
  have hmem := find?_mem hf
  have hall := (List.all_eq_true.mp hWF) (p, f) hmem
  simp only [Bool.and_eq_true] at hall
  match hc : transpileCodeM f (pathToString p) with
  | Except.ok js => exact ⟨js, rfl⟩
  | Except.error m =>
    have := hall.1
    rw [hc] at this
    exact absurd this (by simp)

theorem wellFormed_deps {fs : SrcFS} (hWF : WellFormedB fs = true)
    {p : Path} {f : SrcFile} (hf : fs.find? p = some f) :
    ∀ d ∈ f.deps, (fs.find? d).isSome := by
  have hmem := find?_mem hf
  have hall := (List.all_eq_true.mp hWF) (p, f) hmem
  simp only [Bool.and_eq_true] at hall
  intro d hd
  exact (List.all_eq_true.mp hall.2) d hd

/-- The processed set is dependency-closed over `base`: every newly
processed TypeScript file has all its resolved dependencies processed.
(Copied, non-TypeScript files are never explored by the walk.) -/
def DepClosedFrom (fs : SrcFS) (base fin : List Path) : Prop :=
  ∀ q, q ∈ fin → q ∉ base → isTypeScriptFile q = true →
    ∀ f, fs.find? q = some f → ∀ d ∈ f.deps, d ∈ fin

theorem depClosedFrom_trans {fs : SrcFS} {base mid fin : List Path}
    (h1 : DepClosedFrom fs base mid) (h2 : DepClosedFrom fs mid fin)
    (hsub : ∀ x, x ∈ mid → x ∈ fin) : DepClosedFrom fs base fin := by
  intro q hq hb hts f hf d hd
  by_cases hm : q ∈ mid
  · exact hsub _ (h1 q hm hb hts f hf d hd)
  · exact h2 q hq hm hts f hf d hd

theorem cover_trans {st st1 stF : WalkState}
    (h1 : ∀ x, x ∈ st1.processed → x ∈ st.processed ∨ x ∈ st1.events)
    (h2 : ∀ x, x ∈ stF.processed → x ∈ st1.processed ∨ x ∈ stF.events)
    (hev : ∀ x, x ∈ st1.events → x ∈ stF.events) :
    ∀ x, x ∈ stF.processed → x ∈ st.processed ∨ x ∈ stF.events := by
  intro x hx
  rcases h2 x hx with h | h
  · rcases h1 x h with h' | h'
    · exact Or.inl h'
    · exact Or.inr (hev x h')
  · exact Or.inr h

/-- Wellformedness contract for a transpile callback: on a wellformed graph
and a present file, a callback invocation succeeds, keeps the processed set
dependency-closed, logs an event for every new processed path, and covers
the dependencies of a freshly processed file. -/
def CBWf (fs : SrcFS) (cb : TranspileCallback) : Prop :=
  WellFormedB fs = true →
  ∀ p td bd st r, (fs.find? p).isSome → cb p td bd st = some r →
    (∃ out st', r = Except.ok (out, st'))
    ∧ DepClosedFrom fs st.processed (stateOfR r).processed
    ∧ (∀ x, x ∈ (stateOfR r).processed → x ∈ st.processed ∨ x ∈ (stateOfR r).events)
    ∧ (p ∉ st.processed → ∀ f, fs.find? p = some f →
        ∀ d ∈ f.deps, d ∈ (stateOfR r).processed)

theorem copy_wf {fs : SrcFS} {p td src : Path} {st : WalkState}
    {r : Except WalkState WalkState}
    (hfind : (fs.find? p).isSome) (hts : isTypeScriptFile p = false)
    (h : copyDependencyFile fs p td src st = r) :
    (∃ st', r = Except.ok st')
    ∧ DepClosedFrom fs st.processed (stateOfE r).processed
    ∧ (∀ x, x ∈ (stateOfE r).processed → x ∈ st.processed ∨ x ∈ (stateOfE r).events) := by
  rw [copyDependencyFile] at h
  by_cases hp : p ∈ st.processed
  · rw [if_pos hp] at h
    subst h
    refine ⟨⟨st, rfl⟩, ?_, fun x hx => Or.inl hx⟩
    intro q hq hb
    exact absurd hq hb
  · rw [if_neg hp] at h
    match hfc : fs.find? p with
    | none =>
      rw [hfc] at hfind
      exact absurd hfind (by simp)
    | some file =>
      rw [hfc] at h
      subst h
      refine ⟨⟨_, rfl⟩, ?_, ?_⟩
      · intro q hq hb hqts f hf d hd
        simp only [stateOfE] at hq
        rcases List.mem_cons.mp hq with rfl | hq'
        · rw [hqts] at hts
          exact absurd hts (by simp)
        · exact absurd hq' hb
      · intro x hx
        simp only [stateOfE] at hx ⊢
        rcases List.mem_cons.mp hx with rfl | hx'
        · exact Or.inr (by simp)
        · exact Or.inl hx'

theorem processDeps_wf {fs : SrcFS} {cb : TranspileCallback}
    (hWF : WellFormedB fs = true) (hmono : CBMono cb) (hwf : CBWf fs cb) :
    ∀ (deps : List DepInfo) (src td bd : Path) (st : WalkState)
      (r : Except WalkState WalkState),
      (∀ d ∈ deps, d.needsTranspilation = isTypeScriptFile d.resolvedPath) →
      (∀ d ∈ deps, (fs.find? d.resolvedPath).isSome) →
      processDeps fs cb deps src td bd st = some r →
      (∃ st', r = Except.ok st')
      ∧ DepClosedFrom fs st.processed (stateOfE r).processed
      ∧ (∀ x, x ∈ (stateOfE r).processed → x ∈ st.processed ∨ x ∈ (stateOfE r).events) := by
  intro deps
  induction deps with
  | nil =>
    intro src td bd st r _ _ h
    rw [processDeps] at h
    have : Except.ok st = r := by simpa using h
    subst this
    refine ⟨⟨st, rfl⟩, ?_, fun x hx => Or.inl hx⟩
    intro q hq hb
    exact absurd hq hb
  | cons dep rest ih =>
    intro src td bd st r hcons hfindable h
    rw [processDeps] at h
    have hconsr : ∀ d ∈ rest, d.needsTranspilation = isTypeScriptFile d.resolvedPath :=
      fun d hd => hcons d (List.mem_cons_of_mem _ hd)
    have hfindr : ∀ d ∈ rest, (fs.find? d.resolvedPath).isSome :=
      fun d hd => hfindable d (List.mem_cons_of_mem _ hd)
    by_cases hp : dep.resolvedPath ∈ st.processed
    · rw [if_pos hp] at h
      exact ih src td bd st r hconsr hfindr h
    · rw [if_neg hp] at h
      by_cases ht : dep.needsTranspilation = true
      · rw [if_pos ht] at h
        match hc : cb dep.resolvedPath td bd st with
        | none =>
          rw [hc] at h
          exact absurd h (by simp)
        | some (Except.error st1) =>
          rw [hc] at h
          rcases hwf hWF _ td bd st _ (hfindable dep (List.mem_cons_self _ _)) hc
            with ⟨⟨out, st', hok⟩, _, _, _⟩
          exact absurd hok (by simp)
        | some (Except.ok (out, st1)) =>
          rw [hc] at h
          simp only at h
          rcases hwf hWF _ td bd st _ (hfindable dep (List.mem_cons_self _ _)) hc
            with ⟨_, hclosed1, hcover1, _⟩
          rcases ih src td bd st1 r hconsr hfindr h with ⟨hok, hclosed2, hcover2⟩
          rcases processDeps_mono hmono rest src td bd st1 r h with ⟨hm1, hm2, _⟩
          refine ⟨hok, depClosedFrom_trans hclosed1 hclosed2 hm1,
            cover_trans hcover1 hcover2 hm2⟩
      · rw [if_neg ht] at h
        have hts : isTypeScriptFile dep.resolvedPath = false := by
          have := hcons dep (List.mem_cons_self _ _)
          rw [this] at ht
          cases hx : isTypeScriptFile dep.resolvedPath with
          | false => rfl
          | true => exact absurd hx ht
        match hc : copyDependencyFile fs dep.resolvedPath td src st with
        | Except.error st1 =>
          rw [hc] at h
          rcases copy_wf (hfindable dep (List.mem_cons_self _ _)) hts hc
            with ⟨⟨st', hok⟩, _, _⟩
          exact absurd hok (by simp)
        | Except.ok st1 =>
          rw [hc] at h
          rcases copy_wf (hfindable dep (List.mem_cons_self _ _)) hts hc
            with ⟨_, hclosed1, hcover1⟩
          rcases ih src td bd st1 r hconsr hfindr h with ⟨hok, hclosed2, hcover2⟩
          rcases processDeps_mono hmono rest src td bd st1 r h with ⟨hm1, hm2, _⟩
          refine ⟨hok, depClosedFrom_trans hclosed1 hclosed2 hm1,
            cover_trans hcover1 hcover2 hm2⟩

theorem transpileDependencies_wf {fs : SrcFS} {cb : TranspileCallback}
    (hWF : WellFormedB fs = true) (hmono : CBMono cb) (hwf : CBWf fs cb)
    {src td bd : Path} {st st' : WalkState}
    (hfind : (fs.find? src).isSome)
    (h : transpileDependencies fs cb src td bd st = some st') :
    DepClosedFrom fs st.processed st'.processed
    ∧ (∀ x, x ∈ st'.processed → x ∈ st.processed ∨ x ∈ st'.events)
    ∧ (∀ f, fs.find? src = some f → ∀ d ∈ f.deps, d ∈ st'.processed) := by
  rw [transpileDependencies] at h
  match hfc : fs.find? src with
  | none =>
    rw [hfc] at hfind
    exact absurd hfind (by simp)
  | some file =>
    simp only [hfc] at h
    have hcons : ∀ d ∈ file.deps.map mkDepInfo,
        d.needsTranspilation = isTypeScriptFile d.resolvedPath := by
      intro d hd
      rcases List.mem_map.mp hd with ⟨q, hq, rfl⟩
      rfl
    have hfindable : ∀ d ∈ file.deps.map mkDepInfo,
        (fs.find? d.resolvedPath).isSome := by
      intro d hd
      rcases List.mem_map.mp hd with ⟨q, hq, rfl⟩
      exact wellFormed_deps hWF hfc q hq
    match hpd : processDeps fs cb (file.deps.map mkDepInfo) src td bd st with
    | none =>
      rw [hpd] at h
      exact absurd h (by simp)
    | some (Except.error st1) =>
      rcases processDeps_wf hWF hmono hwf _ src td bd st _ hcons hfindable hpd
        with ⟨⟨st2, hok⟩, _, _⟩
      exact absurd hok (by simp)
    | some (Except.ok st1) =>
      rw [hpd] at h
      have hst : st1 = st' := by simpa using h
      subst hst
      rcases processDeps_wf hWF hmono hwf _ src td bd st _ hcons hfindable hpd
        with ⟨_, hclosed, hcover⟩
      rcases processDeps_mono hmono _ src td bd st _ hpd with ⟨_, _, hdeps⟩
      refine ⟨hclosed, hcover, ?_⟩
      intro f hf d hd
      have hfeq : f = file := by
        try rw [hfc] at hf
        injection hf with h2
        exact h2.symm
      rw [hfeq] at hd
      exact hdeps st1 rfl (mkDepInfo d) (List.mem_map.mpr ⟨d, hd, rfl⟩)

theorem transpileFile_wf (fs : SrcFS) (format : String) :
    ∀ fuel, CBWf fs (transpileFileWithDependencies fs format fuel) := by
  intro fuel
  induction fuel with
  | zero =>
    intro hWF p td bd st r _ h
    rw [transpileFileWithDependencies] at h
    exact absurd h (by simp)
  | succ fuel ih =>
    intro hWF p td bd st r hfind h
    rw [transpileFileWithDependencies] at h
    by_cases hp : p ∈ st.processed
    · rw [if_pos hp] at h
      have : Except.ok ((getMapping st.mapping p).getD p, st) = r := by simpa using h
      subst this
      refine ⟨⟨_, _, rfl⟩, ?_, fun x hx => Or.inl hx, ?_⟩
      · intro q hq hb
        exact absurd hq hb
      · intro hcon
        exact absurd hp hcon
    · rw [if_neg hp] at h
      simp only at h
      match hfc : fs.find? p with
      | none =>
        rw [hfc] at hfind
        exact absurd hfind (by simp)
      | some file =>
        simp only [hfc] at h
        rcases wellFormed_code hWF hfc with ⟨js0, hjs0⟩
        match hcode : transpileCodeM file (pathToString p) with
        | Except.error msg =>
          rw [hcode] at hjs0
          exact absurd hjs0 (by simp)
        | Except.ok js =>
          rw [hcode] at h
          simp only at h
          match htd : transpileDependencies fs
              (transpileFileWithDependencies fs format fuel) p td bd
              { st with
                processed := p :: st.processed
                tempFiles := st.tempFiles ++
                  [calculateTranspiledOutputPath p bd td format]
                mapping := setMapping st.mapping p
                  (calculateTranspiledOutputPath p bd td format)
                written := st.written ++
                  [(calculateTranspiledOutputPath p bd td format,
                    debugComment p td ++ js)]
                events := st.events ++ [p] } with
          | none =>
            rw [htd] at h
            exact absurd h (by simp)
          | some st3 =>
            rw [htd] at h
            have : Except.ok (calculateTranspiledOutputPath p bd td format, st3) = r := by
              simpa using h
            subst this
            rcases transpileDependencies_wf hWF (transpileFile_mono fs format fuel)
              ih (by rw [hfc]; simp) htd with ⟨hclosed, hcover, hdeps⟩
            rcases transpileDependencies_mono (transpileFile_mono fs format fuel) htd
              with ⟨hm1, hm2⟩
            refine ⟨⟨_, _, rfl⟩, ?_, ?_, ?_⟩
            · -- closure from st.processed
              intro q hq hb hts f hf d hd
              simp only [stateOfR] at hq ⊢
              by_cases hqp : q = p
              · subst hqp
                have hfeq : f = file := by
                  try rw [hfc] at hf
                  injection hf with h2
                  exact h2.symm
                rw [hfeq] at hd
                exact hdeps file hfc d hd
              · have hq2 : q ∉ p :: st.processed := by
                  intro hcon
                  rcases List.mem_cons.mp hcon with h1 | h2
                  · exact hqp h1
                  · exact hb h2
                exact hclosed q hq hq2 hts f hf d hd
            · -- every processed path is old or logged
              intro x hx
              simp only [stateOfR] at hx ⊢
              rcases hcover x hx with hx1 | hx2
              · rcases List.mem_cons.mp hx1 with rfl | hx3
                · refine Or.inr (hm2 x ?_)
                  simp
                · exact Or.inl hx3
              · exact Or.inr hx2
            · -- the fresh file's own dependencies are processed
              intro _ f hf d hd
              have hfeq : f = file := by
                try rw [hfc] at hf
                injection hf with h2
                exact h2.symm
              rw [hfeq] at hd
              simp only [stateOfR]
              exact hdeps file hfc d hd

/-! ## C1: termination and exactly-once processing -/

/-- Reachability through the walk's exploration policy: dependencies are
discovered from the entry file and from every TypeScript file (which the
walk transpiles); copied, non-TypeScript files are terminal because
`transpileDependencies` is only invoked for transpiled files. -/
inductive ReachesT (fs : SrcFS) (entry : Path) : Path → Prop where
  | refl : ReachesT fs entry entry
  | step {q r : Path} {f : SrcFile} (hq : ReachesT fs entry q)
      (hqt : q = entry ∨ isTypeScriptFile q = true)
      (hf : fs.find? q = some f) (hd : r ∈ f.deps) : ReachesT fs entry r

/-- C1: for every source graph — cyclic and diamond graphs included — the
recursive dependency processing terminates (with the computable fuel bound,
the walk never runs out); no canonical path is ever converted or copied
twice (the event log is duplicate-free), thanks to the single shared
visited set; and on a wellformed graph the run succeeds and every reachable
canonical path is converted or copied exactly once. -/
theorem walk_terminates_and_visits_once (fs : SrcFS) (format : String)
    (entry tempDir : Path) :
    transpileToTempFile fs format entry tempDir (fuelBound fs entry) ≠ none
    ∧ (∀ r, transpileToTempFile fs format entry tempDir (fuelBound fs entry) = some r →
        (stateOfR r).events.Nodup)
    ∧ (WellFormedB fs = true → (fs.find? entry).isSome →
        ∀ r, transpileToTempFile fs format entry tempDir (fuelBound fs entry) = some r →
          (∃ out st', r = Except.ok (out, st'))
          ∧ (∀ q, ReachesT fs entry q → q ∈ (stateOfR r).events)) := by
  have hR : remainingCount fs entry
      { processed := [], tempDirs := [tempDir], tempFiles := [], mapping := [],
        written := [], events := [] } + 1 ≤ fuelBound fs entry := by
    rw [remainingCount, fuelBound]
    have : (allPathsFinset fs entry).filter
        (fun p => p ∉ ([] : List Path)) = allPathsFinset fs entry := by
      apply Finset.filter_true_of_mem
      intro x _
      simp
    rw [this]
  refine ⟨?_, ?_, ?_⟩
  · show transpileFileWithDependencies fs format (fuelBound fs entry) entry tempDir
      (dirnameP entry)
      { processed := [], tempDirs := [tempDir], tempFiles := [], mapping := [],
        written := [], events := [] } ≠ none
    exact transpileFile_sufficient fs format entry (fuelBound fs entry) entry
      tempDir (dirnameP entry) _ (entry_mem_allPaths fs entry) hR
  · intro r h
    simp only [transpileToTempFile] at h
    exact (transpileFile_events fs format (fuelBound fs entry) entry tempDir
      (dirnameP entry) _ r h ⟨List.nodup_nil, by simp⟩).1
  · intro hWF hfind r h
    simp only [transpileToTempFile] at h
    rcases transpileFile_wf fs format (fuelBound fs entry) hWF entry tempDir
      (dirnameP entry) _ r hfind h with ⟨hok, hclosed, hcover, hpdeps⟩
    rcases transpileFile_mono fs format (fuelBound fs entry) entry tempDir
      (dirnameP entry) _ r h with ⟨hm1, hm2, hm3⟩
    refine ⟨hok, ?_⟩
    have hproc : ∀ q, ReachesT fs entry q → q ∈ (stateOfR r).processed := by
      intro q hq
      induction hq with
      | refl => exact hm2
      | step hq2 hqt hf hd ih =>
        rcases hqt with rfl | hts
        · exact hpdeps (by simp) _ hf _ hd
        · exact hclosed _ ih (by simp) hts _ hf _ hd
    intro q hq
    rcases hcover q (hproc q hq) with h1 | h2
    · exact absurd h1 (by simp)
    · exact h2

/-- The cyclic two-file graph of the C1 witness: `a.ts` imports `b.ts`
which imports `a.ts` back. -/
def c1A : Path := ["proj", "a.ts"]

/-- The second file of the cyclic witness graph. -/
def c1B : Path := ["proj", "b.ts"]

/-- The cyclic source graph A → B → A. -/
def c1FS : SrcFS :=
  [(c1A, ⟨"import \x22./b\x22;", [], some "jsA", [c1B]⟩),
   (c1B, ⟨"import \x22./a\x22;", [], some "jsB", [c1A]⟩)]

/-- The final walk state of the cyclic witness run. -/
def c1ResultState : WalkState :=
  { processed := [["proj", "b.ts"], ["proj", "a.ts"]]
    tempDirs := [["tmp", "w1"]]
    tempFiles := [["tmp", "w1", "a.mjs"], ["tmp", "w1", "b.mjs"]]
    mapping := [(["proj", "a.ts"], ["tmp", "w1", "a.mjs"]),
      (["proj", "b.ts"], ["tmp", "w1", "b.mjs"])]
    written := [(["tmp", "w1", "a.mjs"],
      "// Generated by Nehonix TSR from: /proj/a.ts\n// Session directory: /tmp/w1\n\njsA"),
      (["tmp", "w1", "b.mjs"],
      "// Generated by Nehonix TSR from: /proj/b.ts\n// Session directory: /tmp/w1\n\njsB")]
    events := [["proj", "a.ts"], ["proj", "b.ts"]] }

/-- Witness for `walk_terminates_and_visits_once` on the cyclic graph: the
walk terminates, its event log is duplicate-free, and both files of the
cycle were each converted exactly once. -/
theorem walk_terminates_witness :
    transpileToTempFile c1FS "esm" c1A ["tmp", "w1"] (fuelBound c1FS c1A) ≠ none
    ∧ c1ResultState.events.Nodup
    ∧ c1A ∈ c1ResultState.events ∧ c1B ∈ c1ResultState.events := by
  obtain ⟨h1, h2, h3⟩ := walk_terminates_and_visits_once c1FS "esm" c1A ["tmp", "w1"]
  have hres : transpileToTempFile c1FS "esm" c1A ["tmp", "w1"] (fuelBound c1FS c1A)
      = some (Except.ok (["tmp", "w1", "a.mjs"], c1ResultState)) := by rfl
  rcases h3 (by rfl) (by rfl) _ hres with ⟨_, hcov⟩
  refine ⟨h1, h2 _ hres, hcov c1A ReachesT.refl, ?_⟩
  exact hcov c1B (ReachesT.step ReachesT.refl (Or.inl rfl) (by rfl) (by simp [c1FS]))

/-! ## C2: type-check failure versus session creation -/

/-- C2 amended: when the entry file's filtered diagnostics contain an
error-severity diagnostic, the run aborts with a compilation-error result
and nothing has been written into the session — but the session temp
directory itself has already been created (`createTempSession` runs before
any type checking inside `transpileToTempFile`); removing it is left to the
caller's cleanup. -/
theorem type_error_aborts_after_session_created (fs : SrcFS) (format : String)
    (entry tempDir : Path) (fuel : Nat) (f : SrcFile)
    (hf : fs.find? entry = some f)
    (herr : compilationFails
      (filterRelevantDiagnostics f.diagnostics (pathToString entry)) = true)
    (hfuel : 1 ≤ fuel) :
    transpileToTempFile fs format entry tempDir fuel
      = some (Except.error
          { processed := [entry], tempDirs := [tempDir], tempFiles := [],
            mapping := [], written := [], events := [] }) := by
  match fuel, hfuel with
  | fuel + 1, _ =>
    have hcode : transpileCodeM f (pathToString entry)
        = Except.error "TypeScript compilation failed" := by
      rw [transpileCodeM]
      simp only [herr]
      rfl
    show transpileFileWithDependencies fs format (fuel + 1) entry tempDir
        (dirnameP entry)
        { processed := [], tempDirs := [tempDir], tempFiles := [], mapping := [],
          written := [], events := [] } = _
    rw [transpileFileWithDependencies]
    rw [if_neg (by simp)]
    simp only [hf, hcode]

/-! ## C4: what two runs with different session roots share -/

/-- Two session paths correspond up to swapping the session root: either
both are the session root extended by the same relative part (transpiled
outputs), or both arise by resolving the same (possibly `..`-leading)
relative path against their roots (copied outputs). -/
def pathRel (d1 d2 : Path) (v1 v2 : Path) : Prop :=
  (∃ rel, v1 = resolveRel d1 rel ∧ v2 = resolveRel d2 rel)
  ∨ (∃ rel, v1 = d1 ++ rel ∧ v2 = d2 ++ rel)

/-- Two written files correspond: copied files sit at corresponding
locations with byte-identical contents; transpiled files sit at
corresponding locations and differ exactly in the session directory
recorded inside the debug-comment header. -/
def entryRel (d1 d2 : Path) (a b : Path × String) : Prop :=
  (∃ rel content, a = (resolveRel d1 rel, content) ∧ b = (resolveRel d2 rel, content))
  ∨ (∃ rel orig js, a = (d1 ++ rel, debugComment orig d1 ++ js)
      ∧ b = (d2 ++ rel, debugComment orig d2 ++ js))

/-- One mapping entry corresponds: same original path, session paths
related. -/
def mapEntryRel (d1 d2 : Path) (kv1 kv2 : Path × Path) : Prop :=
  kv1.1 = kv2.1 ∧ pathRel d1 d2 kv1.2 kv2.2

/-- Full correspondence of walk states across two session roots: identical
processed sets and event logs, pointwise-related bookkeeping. -/
def stRel (d1 d2 : Path) (s1 s2 : WalkState) : Prop :=
  s1.processed = s2.processed ∧ s1.events = s2.events
  ∧ List.Forall₂ (mapEntryRel d1 d2) s1.mapping s2.mapping
  ∧ List.Forall₂ (pathRel d1 d2) s1.tempFiles s2.tempFiles
  ∧ List.Forall₂ (entryRel d1 d2) s1.written s2.written

/-- Returned session paths correspond (or are the same original path, for
the already-processed short-circuit with no recorded mapping). -/
def retRel (d1 d2 : Path) (p1 p2 : Path) : Prop :=
  p1 = p2 ∨ pathRel d1 d2 p1 p2

/-- Correspondence of full walk results. -/
def resRel (d1 d2 : Path) :
    Option (Except WalkState (Path × WalkState)) →
      Option (Except WalkState (Path × WalkState)) → Prop
  | none, none => True
  | some (Except.error s1), some (Except.error s2) => stRel d1 d2 s1 s2
  | some (Except.ok (p1, s1)), some (Except.ok (p2, s2)) =>
      retRel d1 d2 p1 p2 ∧ stRel d1 d2 s1 s2
  | _, _ => False

/-- Correspondence of copy results. -/
def copyResRel (d1 d2 : Path) :
    Except WalkState WalkState → Except WalkState WalkState → Prop
  | Except.error s1, Except.error s2 => stRel d1 d2 s1 s2
  | Except.ok s1, Except.ok s2 => stRel d1 d2 s1 s2
  | _, _ => False

/-- Correspondence of dependency-loop results. -/
def procResRel (d1 d2 : Path) :
    Option (Except WalkState WalkState) →
      Option (Except WalkState WalkState) → Prop
  | none, none => True
  | some e1, some e2 => copyResRel d1 d2 e1 e2
  | _, _ => False

/-- Correspondence of `transpileDependencies` results. -/
def depsResRel (d1 d2 : Path) :
    Option WalkState → Option WalkState → Prop
  | none, none => True
  | some s1, some s2 => stRel d1 d2 s1 s2
  | _, _ => False

theorem find?_cons_eq {α : Type} (p : α → Bool) (a : α) (l : List α) :
    List.find? p (a :: l) = if p a then some a else List.find? p l := by
  by_cases h : p a = true
  · rw [if_pos h]
    exact List.find?_cons_of_pos l h
  · rw [if_neg h]
    exact List.find?_cons_of_neg l (by simpa using h)

theorem getMapping_rel {d1 d2 : Path} {m1 m2 : List (Path × Path)} (k : Path)
    (h : List.Forall₂ (mapEntryRel d1 d2) m1 m2) :
    retRel d1 d2 ((getMapping m1 k).getD k) ((getMapping m2 k).getD k) := by
  induction h with
  | nil => exact Or.inl rfl
  | cons hr htail ih =>
    rename_i a1 a2 l1 l2
    rw [getMapping, getMapping, find?_cons_eq, find?_cons_eq]
    by_cases hk : (a1.1 == k) = true
    · have hk2 : (a2.1 == k) = true := by
        rw [← hr.1]
        exact hk
      rw [if_pos hk, if_pos hk2]
      exact Or.inr hr.2
    · have hk2 : ¬ ((a2.1 == k) = true) := by
        rw [← hr.1]
        exact hk
      rw [if_neg hk, if_neg hk2]
      exact ih

theorem findKey_isSome_rel {d1 d2 : Path} {m1 m2 : List (Path × Path)} (k : Path)
    (h : List.Forall₂ (mapEntryRel d1 d2) m1 m2) :
    (List.find? (fun kv => kv.1 == k) m1).isSome
      = (List.find? (fun kv => kv.1 == k) m2).isSome := by
  induction h with
  | nil => rfl
  | cons hr htail ih =>
    rename_i a1 a2 l1 l2
    rw [find?_cons_eq, find?_cons_eq]
    by_cases hk : (a1.1 == k) = true
    · have hk2 : (a2.1 == k) = true := by
        rw [← hr.1]
        exact hk
      rw [if_pos hk, if_pos hk2]
      rfl
    · have hk2 : ¬ ((a2.1 == k) = true) := by
        rw [← hr.1]
        exact hk
      rw [if_neg hk, if_neg hk2]
      exact ih

theorem setMapping_rel {d1 d2 : Path} {m1 m2 : List (Path × Path)} (k : Path)
    {v1 v2 : Path} (h : List.Forall₂ (mapEntryRel d1 d2) m1 m2)
    (hv : pathRel d1 d2 v1 v2) :
    List.Forall₂ (mapEntryRel d1 d2) (setMapping m1 k v1) (setMapping m2 k v2) := by
  rw [setMapping, setMapping]
  rw [← findKey_isSome_rel k h]
  by_cases hs : (List.find? (fun kv => kv.1 == k) m1).isSome = true
  · rw [if_pos hs, if_pos hs]
    clear hs
    induction h with
    | nil => exact List.Forall₂.nil
    | cons hr htail ih =>
      rename_i a1 a2 l1 l2
      simp only [List.map_cons]
      refine List.Forall₂.cons ?_ ih
      by_cases hk : (a1.1 == k) = true
      · have hk2 : (a2.1 == k) = true := by
          rw [← hr.1]
          exact hk
        rw [if_pos hk, if_pos hk2]
        exact ⟨hr.1, hv⟩
      · have hk2 : ¬ ((a2.1 == k) = true) := by
          rw [← hr.1]
          exact hk
        rw [if_neg hk, if_neg hk2]
        exact hr
  · rw [if_neg hs, if_neg hs]
    exact List.rel_append h (List.Forall₂.cons ⟨rfl, hv⟩ List.Forall₂.nil)

/-- The session-root-independent part of `calculateTranspiledOutputPath`. -/
def calcOutSuffix (p bd : Path) (format : String) : List String :=
  let relativePath := relativeSegs bd p
  let relativePath :=
    if startsWithParentSeg relativePath || isAbsoluteRel relativePath then
      [fileNameOf p]
    else
      relativePath
  let dir := relativePath.dropLast
  let base := relativePath.getLastD ""
  let name := (splitExtC base).1
  dir ++ [name ++ newExtOf format]

theorem calcOut_append (p bd td : Path) (format : String) :
    calculateTranspiledOutputPath p bd td format = td ++ calcOutSuffix p bd format :=
  rfl

theorem calcOut_pathRel (p bd : Path) (format : String) (d1 d2 : Path) :
    pathRel d1 d2 (calculateTranspiledOutputPath p bd d1 format)
      (calculateTranspiledOutputPath p bd d2 format) :=
  Or.inr ⟨calcOutSuffix p bd format, calcOut_append p bd d1 format,
    calcOut_append p bd d2 format⟩

theorem calcTarget_pathRel (p sd : Path) (d1 d2 : Path) :
    pathRel d1 d2 (calculateTargetPath p sd d1) (calculateTargetPath p sd d2) :=
  Or.inl ⟨relativeSegs sd p, rfl, rfl⟩

theorem copy_sim {fs : SrcFS} {p sf : Path} {d1 d2 : Path} {s1 s2 : WalkState}
    (h : stRel d1 d2 s1 s2) :
    copyResRel d1 d2 (copyDependencyFile fs p d1 sf s1)
      (copyDependencyFile fs p d2 sf s2) := by
  rcases h with ⟨hproc, hev, hmap, htf, hwr⟩
  rw [copyDependencyFile, copyDependencyFile]
  by_cases hp : p ∈ s1.processed
  · have hp2 : p ∈ s2.processed := hproc ▸ hp
    rw [if_pos hp, if_pos hp2]
    exact ⟨hproc, hev, hmap, htf, hwr⟩
  · have hp2 : p ∉ s2.processed := hproc ▸ hp
    rw [if_neg hp, if_neg hp2]
    match hfc : fs.find? p with
    | none =>
      exact ⟨by simp [hproc], hev, hmap, htf, hwr⟩
    | some file =>
      refine ⟨by simp [hproc], by simp [hev], ?_, ?_, ?_⟩
      · exact setMapping_rel p hmap (calcTarget_pathRel p (dirnameP sf) d1 d2)
      · exact List.rel_append htf
          (List.Forall₂.cons (calcTarget_pathRel p (dirnameP sf) d1 d2)
            List.Forall₂.nil)
      · refine List.rel_append hwr (List.Forall₂.cons ?_ List.Forall₂.nil)
        exact Or.inl ⟨relativeSegs (dirnameP sf) p, file.src, rfl, rfl⟩

theorem processDeps_sim {fs : SrcFS} {d1 d2 : Path} {cb1 cb2 : TranspileCallback}
    (hcb : ∀ p bd s1 s2, stRel d1 d2 s1 s2 →
      resRel d1 d2 (cb1 p d1 bd s1) (cb2 p d2 bd s2)) :
    ∀ (deps : List DepInfo) (src bd : Path) (s1 s2 : WalkState),
      stRel d1 d2 s1 s2 →
      procResRel d1 d2 (processDeps fs cb1 deps src d1 bd s1)
        (processDeps fs cb2 deps src d2 bd s2) := by
  intro deps
  induction deps with
  | nil =>
    intro src bd s1 s2 h
    rw [processDeps, processDeps]
    exact h
  | cons dep rest ih =>
    intro src bd s1 s2 h
    rw [processDeps, processDeps]
    by_cases hp : dep.resolvedPath ∈ s1.processed
    · have hp2 : dep.resolvedPath ∈ s2.processed := h.1 ▸ hp
      rw [if_pos hp, if_pos hp2]
      exact ih src bd s1 s2 h
    · have hp2 : dep.resolvedPath ∉ s2.processed := h.1 ▸ hp
      rw [if_neg hp, if_neg hp2]
      by_cases ht : dep.needsTranspilation = true
      · rw [if_pos ht, if_pos ht]
        have hres := hcb dep.resolvedPath bd s1 s2 h
        match hc1 : cb1 dep.resolvedPath d1 bd s1,
            hc2 : cb2 dep.resolvedPath d2 bd s2 with
        | none, none => trivial
        | none, some r2 =>
          rw [hc1, hc2] at hres
          exact absurd hres (by rcases r2 with t2 | ⟨q2, t2⟩ <;> simp [resRel])
        | some r1, none =>
          rw [hc1, hc2] at hres
          exact absurd hres (by rcases r1 with t1 | ⟨q1, t1⟩ <;> simp [resRel])
        | some (Except.error t1), some (Except.error t2) =>
          rw [hc1, hc2] at hres
          exact hres
        | some (Except.error t1), some (Except.ok (q2, t2)) =>
          rw [hc1, hc2] at hres
          exact absurd hres (by simp [resRel])
        | some (Except.ok (q1, t1)), some (Except.error t2) =>
          rw [hc1, hc2] at hres
          exact absurd hres (by simp [resRel])
        | some (Except.ok (q1, t1)), some (Except.ok (q2, t2)) =>
          rw [hc1, hc2] at hres
          exact ih src bd t1 t2 hres.2
      · rw [if_neg ht, if_neg ht]
        have hres : copyResRel d1 d2
            (copyDependencyFile fs dep.resolvedPath d1 src s1)
            (copyDependencyFile fs dep.resolvedPath d2 src s2) := copy_sim h
        match hc1 : copyDependencyFile fs dep.resolvedPath d1 src s1,
            hc2 : copyDependencyFile fs dep.resolvedPath d2 src s2 with
        | Except.error t1, Except.error t2 =>
          rw [hc1, hc2] at hres
          exact hres
        | Except.error t1, Except.ok t2 =>
          rw [hc1, hc2] at hres
          exact absurd hres (by simp [copyResRel])
        | Except.ok t1, Except.error t2 =>
          rw [hc1, hc2] at hres
          exact absurd hres (by simp [copyResRel])
        | Except.ok t1, Except.ok t2 =>
          rw [hc1, hc2] at hres
          exact ih src bd t1 t2 hres

theorem transpileDependencies_sim {fs : SrcFS} {d1 d2 : Path}
    {cb1 cb2 : TranspileCallback}
    (hcb : ∀ p bd s1 s2, stRel d1 d2 s1 s2 →
      resRel d1 d2 (cb1 p d1 bd s1) (cb2 p d2 bd s2)) :
    ∀ (src bd : Path) (s1 s2 : WalkState), stRel d1 d2 s1 s2 →
      depsResRel d1 d2 (transpileDependencies fs cb1 src d1 bd s1)
        (transpileDependencies fs cb2 src d2 bd s2) := by
  intro src bd s1 s2 h
  rw [transpileDependencies, transpileDependencies]
  match hfc : fs.find? src with
  | none => exact h
  | some file =>
    simp only
    have hres : procResRel d1 d2
        (processDeps fs cb1 (file.deps.map mkDepInfo) src d1 bd s1)
        (processDeps fs cb2 (file.deps.map mkDepInfo) src d2 bd s2) :=
      processDeps_sim hcb (file.deps.map mkDepInfo) src bd s1 s2 h
    match hc1 : processDeps fs cb1 (file.deps.map mkDepInfo) src d1 bd s1,
        hc2 : processDeps fs cb2 (file.deps.map mkDepInfo) src d2 bd s2 with
    | none, none => trivial
    | none, some e2 =>
      rw [hc1, hc2] at hres
      exact absurd hres (by simp [procResRel])
    | some e1, none =>
      rw [hc1, hc2] at hres
      exact absurd hres (by simp [procResRel])
    | some (Except.ok t1), some (Except.ok t2) =>
      rw [hc1, hc2] at hres
      exact hres
    | some (Except.ok t1), some (Except.error t2) =>
      rw [hc1, hc2] at hres
      exact absurd hres (by simp [procResRel, copyResRel])
    | some (Except.error t1), some (Except.ok t2) =>
      rw [hc1, hc2] at hres
      exact absurd hres (by simp [procResRel, copyResRel])
    | some (Except.error t1), some (Except.error t2) =>
      rw [hc1, hc2] at hres
      exact hres

theorem transpileFile_sim (fs : SrcFS) (format : String) (d1 d2 : Path) :
    ∀ (fuel : Nat) (p bd : Path) (s1 s2 : WalkState), stRel d1 d2 s1 s2 →
      resRel d1 d2 (transpileFileWithDependencies fs format fuel p d1 bd s1)
        (transpileFileWithDependencies fs format fuel p d2 bd s2) := by
  intro fuel
  induction fuel with
  | zero =>
    intro p bd s1 s2 h
    rw [transpileFileWithDependencies, transpileFileWithDependencies]
    trivial
  | succ fuel ih =>
    intro p bd s1 s2 h
    rw [transpileFileWithDependencies, transpileFileWithDependencies]
    by_cases hp : p ∈ s1.processed
    · have hp2 : p ∈ s2.processed := h.1 ▸ hp
      rw [if_pos hp, if_pos hp2]
      exact ⟨getMapping_rel p h.2.2.1, h⟩
    · have hp2 : p ∉ s2.processed := h.1 ▸ hp
      rw [if_neg hp, if_neg hp2]
      rcases h with ⟨hproc, hev, hmap, htf, hwr⟩
      match hfc : fs.find? p with
      | none =>
        exact ⟨by simp [hproc], hev, hmap, htf, hwr⟩
      | some file =>
        simp only
        match hcode : transpileCodeM file (pathToString p) with
        | Except.error msg =>
          exact ⟨by simp [hproc], hev, hmap, htf, hwr⟩
        | Except.ok js =>
          simp only
          have hst2 : stRel d1 d2
              { s1 with
                processed := p :: s1.processed
                tempFiles := s1.tempFiles ++
                  [calculateTranspiledOutputPath p bd d1 format]
                mapping := setMapping s1.mapping p
                  (calculateTranspiledOutputPath p bd d1 format)
                written := s1.written ++
                  [(calculateTranspiledOutputPath p bd d1 format,
                    debugComment p d1 ++ js)]
                events := s1.events ++ [p] }
              { s2 with
                processed := p :: s2.processed
                tempFiles := s2.tempFiles ++
                  [calculateTranspiledOutputPath p bd d2 format]
                mapping := setMapping s2.mapping p
                  (calculateTranspiledOutputPath p bd d2 format)
                written := s2.written ++
                  [(calculateTranspiledOutputPath p bd d2 format,
                    debugComment p d2 ++ js)]
                events := s2.events ++ [p] } := by
            refine ⟨by simp [hproc], by simp [hev], ?_, ?_, ?_⟩
            · exact setMapping_rel p hmap (calcOut_pathRel p bd format d1 d2)
            · exact List.rel_append htf
                (List.Forall₂.cons (calcOut_pathRel p bd format d1 d2)
                  List.Forall₂.nil)
            · refine List.rel_append hwr (List.Forall₂.cons ?_ List.Forall₂.nil)
              exact Or.inr ⟨calcOutSuffix p bd format, p, js,
                by rw [calcOut_append], by rw [calcOut_append]⟩
          have hres : depsResRel d1 d2
              (transpileDependencies fs
                (transpileFileWithDependencies fs format fuel) p d1 bd
                { s1 with
                  processed := p :: s1.processed
                  tempFiles := s1.tempFiles ++
                    [calculateTranspiledOutputPath p bd d1 format]
                  mapping := setMapping s1.mapping p
                    (calculateTranspiledOutputPath p bd d1 format)
                  written := s1.written ++
                    [(calculateTranspiledOutputPath p bd d1 format,
                      debugComment p d1 ++ js)]
                  events := s1.events ++ [p] })
              (transpileDependencies fs
                (transpileFileWithDependencies fs format fuel) p d2 bd
                { s2 with
                  processed := p :: s2.processed
                  tempFiles := s2.tempFiles ++
                    [calculateTranspiledOutputPath p bd d2 format]
                  mapping := setMapping s2.mapping p
                    (calculateTranspiledOutputPath p bd d2 format)
                  written := s2.written ++
                    [(calculateTranspiledOutputPath p bd d2 format,
                      debugComment p d2 ++ js)]
                  events := s2.events ++ [p] }) :=
            transpileDependencies_sim ih p bd _ _ hst2
          match htd1 : transpileDependencies fs
              (transpileFileWithDependencies fs format fuel) p d1 bd
              { s1 with
                processed := p :: s1.processed
                tempFiles := s1.tempFiles ++
                  [calculateTranspiledOutputPath p bd d1 format]
                mapping := setMapping s1.mapping p
                  (calculateTranspiledOutputPath p bd d1 format)
                written := s1.written ++
                  [(calculateTranspiledOutputPath p bd d1 format,
                    debugComment p d1 ++ js)]
                events := s1.events ++ [p] },
            htd2 : transpileDependencies fs
              (transpileFileWithDependencies fs format fuel) p d2 bd
              { s2 with
                processed := p :: s2.processed
                tempFiles := s2.tempFiles ++
                  [calculateTranspiledOutputPath p bd d2 format]
                mapping := setMapping s2.mapping p
                  (calculateTranspiledOutputPath p bd d2 format)
                written := s2.written ++
                  [(calculateTranspiledOutputPath p bd d2 format,
                    debugComment p d2 ++ js)]
                events := s2.events ++ [p] } with
          | none, none => trivial
          | none, some t2 =>
            rw [htd1, htd2] at hres
            exact absurd hres (by simp [depsResRel])
          | some t1, none =>
            rw [htd1, htd2] at hres
            exact absurd hres (by simp [depsResRel])
          | some t1, some t2 =>
            rw [htd1, htd2] at hres
            exact ⟨Or.inr (calcOut_pathRel p bd format d1 d2), hres⟩

/-- C4 amended: two runs over the same graph with the same options but
differently named session roots produce structurally identical results —
same processed set and event log, and pairwise-corresponding outputs:
copied files byte-identical at corresponding locations, transpiled files at
corresponding locations with contents differing exactly in the session
directory embedded in the debug-comment header. Byte-identical output is
exactly what the header line breaks. -/
theorem runs_identical_up_to_session_dir (fs : SrcFS) (format : String)
    (entry : Path) (d1 d2 : Path) (fuel : Nat) :
    resRel d1 d2 (transpileToTempFile fs format entry d1 fuel)
      (transpileToTempFile fs format entry d2 fuel) := by
  show resRel d1 d2
    (transpileFileWithDependencies fs format fuel entry d1 (dirnameP entry)
      { processed := [], tempDirs := [d1], tempFiles := [], mapping := [],
        written := [], events := [] })
    (transpileFileWithDependencies fs format fuel entry d2 (dirnameP entry)
      { processed := [], tempDirs := [d2], tempFiles := [], mapping := [],
        written := [], events := [] })
  exact transpileFile_sim fs format d1 d2 fuel entry (dirnameP entry) _ _
    ⟨rfl, rfl, List.Forall₂.nil, List.Forall₂.nil, List.Forall₂.nil⟩

/-- The entry file of the C4 counterexample. -/
def c4Entry : Path := ["proj", "app.ts"]

/-- A one-file graph for the C4 counterexample. -/
def c4FS : SrcFS :=
  [(c4Entry, ⟨"const a = 1;", [], some "const a = 1;", []⟩)]

/-- The contents (bytes) written by a run. -/
def writtenContents (r : Option (Except WalkState (Path × WalkState))) :
    List String :=
  match r with
  | some (Except.ok (_, st)) => st.written.map (fun kv => kv.2)
  | some (Except.error st) => st.written.map (fun kv => kv.2)
  | none => []

/-- C4 counterexample: running the pipeline twice on an unchanged entry
file with fixed options but (necessarily) differently named session roots
does NOT produce byte-identical output — the debug-comment header embeds
the session directory. -/
theorem rerun_not_byte_identical :
    writtenContents (transpileToTempFile c4FS "esm" c4Entry ["tmp", "s1"] 3)
      ≠ writtenContents (transpileToTempFile c4FS "esm" c4Entry ["tmp", "s2"] 3) := by
  decide

/-! ## C6: conversion-failure policy -/

/-- Result-shape helper: a successfully returning walk whose entry file was
fresh, present, and converted cleanly always returns `Except.ok`. -/
theorem transpileFile_ok_shape {fs : SrcFS} {format : String} {fuel : Nat}
    {p td bd : Path} {st : WalkState} {r : Except WalkState (Path × WalkState)}
    {f : SrcFile} {js : String}
    (hp : p ∉ st.processed) (hf : fs.find? p = some f)
    (hjs : transpileCodeM f (pathToString p) = Except.ok js)
    (h : transpileFileWithDependencies fs format (fuel + 1) p td bd st = some r) :
    ∃ out st', r = Except.ok (out, st') := by
  rw [transpileFileWithDependencies] at h
  rw [if_neg hp] at h
  simp only [hf, hjs] at h
  match htd : transpileDependencies fs
      (transpileFileWithDependencies fs format fuel) p td bd
      { st with
        processed := p :: st.processed
        tempFiles := st.tempFiles ++
          [calculateTranspiledOutputPath p bd td format]
        mapping := setMapping st.mapping p
          (calculateTranspiledOutputPath p bd td format)
        written := st.written ++
          [(calculateTranspiledOutputPath p bd td format,
            debugComment p td ++ js)]
        events := st.events ++ [p] } with
  | none =>
    rw [htd] at h
    exact absurd h (by simp)
  | some st3 =>
    rw [htd] at h
    exact ⟨calculateTranspiledOutputPath p bd td format, st3, by simpa using h.symm⟩

/-- C6 amended: a conversion failure of the entry file itself aborts the
whole run with an error; but once the entry file converts cleanly, the run
always completes successfully — conversion failures inside dependency
processing are caught by `transpileDependencies`' try/catch, logged, and
swallowed, leaving the graph partially converted. -/
theorem convert_error_entry_aborts_deps_swallowed (fs : SrcFS) (format : String)
    (entry tempDir : Path) (f : SrcFile) (hf : fs.find? entry = some f) :
    (compilationFails
        (filterRelevantDiagnostics f.diagnostics (pathToString entry)) = false →
      f.conv = none → ∀ fuel, 1 ≤ fuel →
      transpileToTempFile fs format entry tempDir fuel
        = some (Except.error
            { processed := [entry], tempDirs := [tempDir], tempFiles := [],
              mapping := [], written := [], events := [] }))
    ∧ (∀ js, transpileCodeM f (pathToString entry) = Except.ok js →
        ∃ out st', transpileToTempFile fs format entry tempDir (fuelBound fs entry)
          = some (Except.ok (out, st'))) := by
  constructor
  · intro hnoerr hconv fuel hfuel
    match fuel, hfuel with
    | fuel + 1, _ =>
      have hcode : transpileCodeM f (pathToString entry)
          = Except.error "Transpilation failed" := by
        rw [transpileCodeM]
        simp only [hnoerr, hconv]
        rfl
      show transpileFileWithDependencies fs format (fuel + 1) entry tempDir
          (dirnameP entry)
          { processed := [], tempDirs := [tempDir], tempFiles := [], mapping := [],
            written := [], events := [] } = _
      rw [transpileFileWithDependencies]
      rw [if_neg (by simp)]
      simp only [hf, hcode]
  · intro js hjs
    obtain ⟨n, hn⟩ : ∃ n, fuelBound fs entry = n + 1 :=
      ⟨(allPathsFinset fs entry).card, rfl⟩
    have hR : remainingCount fs entry
        { processed := [], tempDirs := [tempDir], tempFiles := [], mapping := [],
          written := [], events := [] } + 1 ≤ fuelBound fs entry := by
      rw [remainingCount, fuelBound]
      have : (allPathsFinset fs entry).filter
          (fun p => p ∉ ([] : List Path)) = allPathsFinset fs entry := by
        apply Finset.filter_true_of_mem
        intro x _
        simp
      rw [this]
    have hne : transpileFileWithDependencies fs format (fuelBound fs entry) entry
        tempDir (dirnameP entry)
        { processed := [], tempDirs := [tempDir], tempFiles := [], mapping := [],
          written := [], events := [] } ≠ none :=
      transpileFile_sufficient fs format entry (fuelBound fs entry) entry tempDir
        (dirnameP entry) _ (entry_mem_allPaths fs entry) hR
    match hres : transpileFileWithDependencies fs format (fuelBound fs entry) entry
        tempDir (dirnameP entry)
        { processed := [], tempDirs := [tempDir], tempFiles := [], mapping := [],
          written := [], events := [] } with
    | none => exact absurd hres hne
    | some r =>
      have hres' : transpileFileWithDependencies fs format (n + 1) entry
          tempDir (dirnameP entry)
          { processed := [], tempDirs := [tempDir], tempFiles := [], mapping := [],
            written := [], events := [] } = some r := by
        rw [← hn]
        exact hres
      rcases transpileFile_ok_shape (by simp) hf hjs hres' with ⟨out, st', hok⟩
      refine ⟨out, st', ?_⟩
      show transpileFileWithDependencies fs format (fuelBound fs entry) entry
          tempDir (dirnameP entry)
          { processed := [], tempDirs := [tempDir], tempFiles := [], mapping := [],
            written := [], events := [] } = some (Except.ok (out, st'))
      rw [hres, hok]

/-- The entry file of the C6 counterexample graph. -/
def c6A : Path := ["proj", "main.ts"]

/-- A dependency whose conversion fails (`conv = none`). -/
def c6B : Path := ["proj", "broken.ts"]

/-- The C6 counterexample graph: a clean entry importing a file whose
conversion fails. -/
def c6FS : SrcFS :=
  [(c6A, ⟨"import \x22./broken\x22;", [], some "jsMain", [c6B]⟩),
   (c6B, ⟨"const x: = ;", [], none, []⟩)]

/-- The final state of the C6 counterexample run. -/
def c6ResultState : WalkState :=
  { processed := [["proj", "broken.ts"], ["proj", "main.ts"]]
    tempDirs := [["tmp", "s6"]]
    tempFiles := [["tmp", "s6", "main.mjs"]]
    mapping := [(["proj", "main.ts"], ["tmp", "s6", "main.mjs"])]
    written := [(["tmp", "s6", "main.mjs"],
      "// Generated by Nehonix TSR from: /proj/main.ts\n// Session directory: /tmp/s6\n\njsMain")]
    events := [["proj", "main.ts"]] }

/-- C6 counterexample: the conversion of dependency `broken.ts` fails, yet
the run completes successfully over a partially converted graph — the
broken dependency was attempted (it is in the processed set) but never
converted (no event, no written file for it). -/
theorem dep_convert_error_swallowed :
    transpileToTempFile c6FS "esm" c6A ["tmp", "s6"] 5
      = some (Except.ok (["tmp", "s6", "main.mjs"], c6ResultState))
    ∧ c6B ∈ c6ResultState.processed
    ∧ c6B ∉ c6ResultState.events
    ∧ (c6FS.find? c6B).isSome = true
  := ⟨rfl, by decide, by decide, rfl⟩

/-- Witness for `convert_error_entry_aborts_deps_swallowed`: a concrete
entry whose conversion fails aborts the run; the clean entry of the C6
graph completes despite its broken dependency. -/
theorem convert_error_policy_witness :
    transpileToTempFile
        [(c6B, ⟨"const x: = ;", ([] : List Diagnostic), none, ([] : List Path)⟩)]
        "esm" c6B ["tmp", "s7"] 4
      = some (Except.error
          { processed := [c6B], tempDirs := [["tmp", "s7"]], tempFiles := [],
            mapping := [], written := [], events := [] })
    ∧ ∃ out st', transpileToTempFile c6FS "esm" c6A ["tmp", "s6"] (fuelBound c6FS c6A)
        = some (Except.ok (out, st')) :=
  ⟨(convert_error_entry_aborts_deps_swallowed
      [(c6B, ⟨"const x: = ;", [], none, []⟩)] "esm" c6B ["tmp", "s7"]
      ⟨"const x: = ;", [], none, []⟩ (by rfl)).1 (by rfl) (by rfl) 4 (by decide),
   (convert_error_entry_aborts_deps_swallowed c6FS "esm" c6A ["tmp", "s6"]
      ((c6FS.find? c6A).get (by rfl)) (by rfl)).2 "jsMain" (by rfl)⟩

/-- The entry file of the C2 counterexample: one entry-file-scoped
error-severity diagnostic with allowlisted code 2322. -/
def c2Entry : Path := ["proj", "main.ts"]

/-- A source filesystem whose entry file fails the type check. -/
def c2FS : SrcFS :=
  [(c2Entry,
    { src := "const n: number = \x22s\x22;"
      diagnostics := [⟨DiagCategory.error, some (pathToString c2Entry), 2322⟩]
      conv := some "const n = \x22s\x22;"
      deps := [] })]

/-- C2 counterexample: on a type-error entry the run does abort with a
compilation error and writes nothing, but the session directory HAS been
created (`tempDirs = [tempDir] ≠ []`) — refuting "no session (temporary
output directory) is created". -/
theorem session_dir_created_on_type_error :
    transpileToTempFile c2FS "esm" c2Entry ["tmp", "sess"] 5
      = some (Except.error
          { processed := [c2Entry], tempDirs := [["tmp", "sess"]], tempFiles := [],
            mapping := [], written := [], events := [] })
    ∧ ([["tmp", "sess"]] : List Path) ≠ [] :=
  ⟨rfl, by decide⟩

/-- Witness for `type_error_aborts_after_session_created` at the concrete
type-error filesystem. -/
theorem type_error_aborts_witness :
    transpileToTempFile c2FS "esm" c2Entry ["tmp", "w2"] 7
      = some (Except.error
          { processed := [c2Entry], tempDirs := [["tmp", "w2"]], tempFiles := [],
            mapping := [], written := [], events := [] }) :=
  type_error_aborts_after_session_created c2FS "esm" c2Entry ["tmp", "w2"] 7
    ((c2FS.find? c2Entry).get (by rfl)) (by rfl) (by rfl) (by decide)

end NTSR
